import Mathlib

/-!
Verification of the AVL-tree component of `src/binary-tree/implementation.py`
(classes `BinaryTree`, `BinarySearchTree`, `AVLTree`).

The Python `Optional[TreeNode]` pointer structure is embedded as the inductive
type `AVL` below: `nil` is `None`, and `node l d h r` is an `AVLNode` with
`left = l`, `data = d`, `height = h` (the cached height field, initialised to
`1` on creation), `right = r`.  Keys are embedded as `Int` (the code compares
them only with `<`, `>`, `==`).  Code that can dereference an absent node
(`AttributeError` in Python) is embedded with `Option`: a `none` result marks
the crash.  The mutable `self.size` counter is carried explicitly in
`AVLState`.
-/

namespace AVLVerify

/-- Embedding of the `AVLNode` structure: `nil` is Python `None`; `node l d h r`
carries the left child, the key, the cached `height` field and the right
child. -/
inductive AVL : Type
  | nil : AVL
  | node (left : AVL) (data : Int) (height : Nat) (right : AVL) : AVL
deriving DecidableEq, Repr

/-- Embedding of `AVLTree._get_height`: the cached `height` field, `0` for an
absent node. -/
def get_height : AVL → Nat
  | .nil => 0
  | .node _ _ h _ => h

/-- Embedding of `AVLTree._get_balance`: difference of the children's cached
heights, `0` for an absent node. -/
def get_balance : AVL → Int
  | .nil => 0
  | .node l _ _ r => (get_height l : Int) - (get_height r : Int)

/-- True structural height of the embedded tree, with the empty tree at `0`
and a single node at `1` (so Python's `-1`/`0` convention of
`BinaryTree.get_height` is this value minus one). -/
def real_height : AVL → Nat
  | .nil => 0
  | .node l _ _ r => max (real_height l) (real_height r) + 1

/-- Embedding of `AVLTree._rotate_right`.  `x = y.left`, `T2 = x.right`; the
heights of the two moved nodes are recomputed from the cached heights of their
new children (`_update_height` on `y` first, then on `x`).  Returns `none`
when `y.left` is absent: there the Python reads `x.right` with `x = None` and
raises `AttributeError`. -/
def rotate_right : AVL → Option AVL
  | .node (.node ll lk _ lr) k _ r =>
      let y2 := AVL.node lr k (max (get_height lr) (get_height r) + 1) r
      some (AVL.node ll lk (max (get_height ll) (get_height y2) + 1) y2)
  | _ => none

/-- Embedding of `AVLTree._rotate_left`.  `y = x.right`, `T2 = y.left`;
`_update_height` on `x` first, then on `y`.  Returns `none` when `x.right` is
absent. -/
def rotate_left : AVL → Option AVL
  | .node l k _ (.node rl rk _ rr) =>
      let x2 := AVL.node l k (max (get_height l) (get_height rl) + 1) rl
      some (AVL.node x2 rk (max (get_height x2) (get_height rr) + 1) rr)
  | _ => none

/-- Key membership in the embedded tree (the set of `data` fields reachable
from the root). -/
def memB (k : Int) : AVL → Bool
  | .nil => false
  | .node l d _ r => (k == d) || memB k l || memB k r

/-- Every key in the tree satisfies the boolean predicate `p`. -/
def allB (p : Int → Bool) : AVL → Bool
  | .nil => true
  | .node l d _ r => p d && allB p l && allB p r

/-- BST ordering property: at every node all keys in the left subtree are
strictly less than the node's key and all keys in the right subtree strictly
greater. -/
def bstB : AVL → Bool
  | .nil => true
  | .node l d _ r =>
      allB (fun k => decide (k < d)) l && allB (fun k => decide (d < k)) r &&
      bstB l && bstB r

/-- AVL balance property computed from the true structural heights: at every
node the heights of the two subtrees differ by at most `1`. -/
def balancedB : AVL → Bool
  | .nil => true
  | .node l _ _ r =>
      decide (((real_height l : Int) - (real_height r : Int)).natAbs ≤ 1) &&
      balancedB l && balancedB r

/-- Cached-height coherence: at every node the `height` field equals
`1 + max` of the children's cached heights (`0` for an absent child). -/
def heightsOk : AVL → Bool
  | .nil => true
  | .node l _ h r =>
      (h == max (get_height l) (get_height r) + 1) && heightsOk l && heightsOk r

/-- Embedding of `BinaryTree.inorder_traversal` (left, root, right). -/
def inorder : AVL → List Int
  | .nil => []
  | .node l d _ r => inorder l ++ d :: inorder r

/-- Steps 2-4 of `AVLTree._insert_avl` on the current node after the recursive
insertion returned: `_update_height(node)` (the recomputed field `nh`), the
balance factor from cached heights, then the four sequential rotation guards.
`d` is the key being inserted; the Left-Left/Left-Right guards dereference
`node.left.data` and the Right-Right/Right-Left guards `node.right.data`, so
an absent child there is a crash (`none`); when no guard fires the node is
returned unchanged. -/
def rebalance_ins (l : AVL) (nd : Int) (r : AVL) (d : Int) : Option AVL :=
  let nh := max (get_height l) (get_height r) + 1
  let bal : Int := (get_height l : Int) - (get_height r : Int)
  if 1 < bal then
    match l with
    | .nil => none
    | .node ll ld lh lr =>
      if d < ld then rotate_right (AVL.node (AVL.node ll ld lh lr) nd nh r)
      else if ld < d then
        match rotate_left (AVL.node ll ld lh lr) with
        | none => none
        | some l2 => rotate_right (AVL.node l2 nd nh r)
      else some (AVL.node (AVL.node ll ld lh lr) nd nh r)
  else if bal < -1 then
    match r with
    | .nil => none
    | .node rl rd rh rr =>
      if rd < d then rotate_left (AVL.node l nd nh (AVL.node rl rd rh rr))
      else if d < rd then
        match rotate_right (AVL.node rl rd rh rr) with
        | none => none
        | some r2 => rotate_left (AVL.node l nd nh r2)
      else some (AVL.node l nd nh (AVL.node rl rd rh rr))
  else some (AVL.node l nd nh r)

/-- Embedding of `AVLTree._insert_avl`.  The `Bool` records whether
`self.size += 1` executed (a fresh node was created); equal keys return the
node unchanged before any height update. -/
def insert_avl : AVL → Int → Option (AVL × Bool)
  | .nil, d => some (AVL.node AVL.nil d 1 AVL.nil, true)
  | .node l nd nh r, d =>
    if d < nd then
      match insert_avl l d with
      | none => none
      | some (l2, inc) =>
        match rebalance_ins l2 nd r d with
        | none => none
        | some t2 => some (t2, inc)
    else if nd < d then
      match insert_avl r d with
      | none => none
      | some (r2, inc) =>
        match rebalance_ins l nd r2 d with
        | none => none
        | some t2 => some (t2, inc)
    else some (AVL.node l nd nh r, false)

/-- Embedding of `BinaryTree._find_min_node` (follow `left` links), returning
the final node's `data`; `none` for the absent tree, on which the Python
helper would be miscalled. -/
def find_min_node : AVL → Option Int
  | .nil => none
  | .node l d _ _ =>
    match l with
    | .nil => some d
    | .node _ _ _ _ => find_min_node l

/-- Steps 2-4 of `AVLTree._delete_avl` on the current node: height update,
balance factor, then the four guards which here test `_get_balance` of a
child (`0` for an absent child, so guard evaluation never crashes; only the
rotations themselves can dereference an absent child). -/
def rebalance_del (l : AVL) (nd : Int) (r : AVL) : Option AVL :=
  let nh := max (get_height l) (get_height r) + 1
  let bal : Int := (get_height l : Int) - (get_height r : Int)
  if 1 < bal ∧ 0 ≤ get_balance l then rotate_right (AVL.node l nd nh r)
  else if 1 < bal ∧ get_balance l < 0 then
    match rotate_left l with
    | none => none
    | some l2 => rotate_right (AVL.node l2 nd nh r)
  else if bal < -1 ∧ get_balance r ≤ 0 then rotate_left (AVL.node l nd nh r)
  else if bal < -1 ∧ 0 < get_balance r then
    match rotate_right r with
    | none => none
    | some r2 => rotate_left (AVL.node l nd nh r2)
  else some (AVL.node l nd nh r)

/-- Embedding of `AVLTree._delete_avl`.  The `Nat` counts how many times
`self.size -= 1` executed during the call (the two-children case runs it once
and then recursively deletes the in-order successor, which runs it again).
One-child and leaf cases return the remaining child before any height
update, exactly as the early `return` in the Python. -/
def delete_avl : AVL → Int → Option (AVL × Nat)
  | .nil, _ => some (AVL.nil, 0)
  | .node l nd nh r, d =>
    if d < nd then
      match delete_avl l d with
      | none => none
      | some (l2, c) =>
        match rebalance_del l2 nd r with
        | none => none
        | some t2 => some (t2, c)
    else if nd < d then
      match delete_avl r d with
      | none => none
      | some (r2, c) =>
        match rebalance_del l nd r2 with
        | none => none
        | some t2 => some (t2, c)
    else
      match l with
      | .nil => some (r, 1)
      | .node _ _ _ _ =>
        match r with
        | .nil => some (l, 1)
        | .node _ _ _ _ =>
          match find_min_node r with
          | none => none
          | some s =>
            match delete_avl r s with
            | none => none
            | some (r2, c) =>
              match rebalance_del l s r2 with
              | none => none
              | some t2 => some (t2, c + 1)

/-- Observable state of an `AVLTree` object: the root pointer and the mutable
`self.size` counter (an unbounded Python `int`, hence `Int`). -/
structure AVLState where
  root : AVL
  size : Int
deriving DecidableEq, Repr

/-- Embedding of `AVLTree.insert`: an empty tree gets a fresh root with
`height = 1` and `size` set to `1`; otherwise `_insert_avl` runs and `size`
grows by one exactly when a node was created. -/
def insert (s : AVLState) (d : Int) : Option AVLState :=
  match s.root with
  | .nil => some ⟨AVL.node AVL.nil d 1 AVL.nil, 1⟩
  | .node l nd nh r =>
    match insert_avl (AVL.node l nd nh r) d with
    | none => none
    | some (t2, inc) => some ⟨t2, s.size + (if inc then 1 else 0)⟩

/-- Embedding of `AVLTree.delete`: `False` immediately on an empty tree,
otherwise `_delete_avl` runs and the returned `Bool` is the comparison
`self.size < initial_size`. -/
def delete (s : AVLState) (d : Int) : Option (AVLState × Bool) :=
  match s.root with
  | .nil => some (s, false)
  | .node l nd nh r =>
    match delete_avl (AVL.node l nd nh r) d with
    | none => none
    | some (t2, c) =>
      some (⟨t2, s.size - (c : Int)⟩, decide (s.size - (c : Int) < s.size))

/-- One public mutating call on the `AVLTree`. -/
inductive Op : Type
  | ins (k : Int)
  | del (k : Int)
deriving DecidableEq, Repr

/-- Execution of one call, discarding `delete`'s boolean result. -/
def step (s : AVLState) : Op → Option AVLState
  | .ins k => insert s k
  | .del k => (delete s k).map Prod.fst

/-- A freshly constructed `AVLTree()`: no root, `size = 0`. -/
def emptyTree : AVLState := ⟨AVL.nil, 0⟩

/-- Execution of a finite sequence of insert/delete calls starting from the
empty tree; `none` if some call crashed. -/
def run (ops : List Op) : Option AVLState :=
  ops.foldlM step emptyTree

/-- Embedding of `BinarySearchTree._search_recursive`, returning the subtree
rooted at the found node. -/
def search_node : AVL → Int → Option AVL
  | .nil, _ => none
  | .node l nd h r, d =>
    if d == nd then some (AVL.node l nd h r)
    else if d < nd then search_node l d
    else search_node r d

/-- Embedding of `BinarySearchTree.search`. -/
def search (t : AVL) (d : Int) : Bool :=
  (search_node t d).isSome

/-- Embedding of `BinarySearchTree.find_min`: `None` on the empty tree,
otherwise the data of the leftmost node. -/
def find_min : AVL → Option Int
  | .nil => none
  | .node l d h r => find_min_node (AVL.node l d h r)

/-- Embedding of `BinarySearchTree.find_max` (and of the loop body of
`_find_max_in_subtree`): follow `right` links; `None` on the empty tree. -/
def find_max : AVL → Option Int
  | .nil => none
  | .node _ d _ r =>
    match r with
    | .nil => some d
    | .node a b c e => find_max (AVL.node a b c e)

/-- Embedding of `BinarySearchTree.find_predecessor` as it executes on a tree
built by `AVLTree.insert`/`AVLTree.delete`.  `TreeNode.parent` is initialised
to `None`, and `_insert_avl`, `_delete_avl`, `_rotate_left`, `_rotate_right`
never assign `.parent` (only the `BinarySearchTree._insert_recursive` path,
which `AVLTree` overrides, does), so on such trees every node's parent field
is `None`: when the found node has no left child, `ancestor = node.parent`
starts as `None`, the while loop is skipped, and the method returns `None`. -/
def find_predecessor (t : AVL) (d : Int) : Option Int :=
  match search_node t d with
  | none => none
  | some AVL.nil => none
  | some (AVL.node l _ _ _) =>
    match l with
    | .nil => none
    | .node a b c e => find_max (AVL.node a b c e)

/-- Embedding of `BinarySearchTree.find_successor` as it executes on a tree
built by `AVLTree.insert`/`AVLTree.delete`; the parent-walk branch returns
`None` for the reason documented at `find_predecessor`. -/
def find_successor (t : AVL) (d : Int) : Option Int :=
  match search_node t d with
  | none => none
  | some AVL.nil => none
  | some (AVL.node _ _ _ r) =>
    match r with
    | .nil => none
    | .node a b c e => find_min_node (AVL.node a b c e)

/-- Embedding of `AVLTree.is_balanced` / `_is_balanced_helper`: at every node
it tests `abs(_get_balance(node)) <= 1`, where `_get_balance` reads the CACHED
`height` fields of the children, not recomputed structural heights. -/
def is_balanced : AVL → Bool
  | .nil => true
  | .node l d h r =>
      decide ((get_balance (AVL.node l d h r)).natAbs ≤ 1) &&
      is_balanced l && is_balanced r

/-- Embedding of `BinaryTree.get_height` with explicit recursion fuel; `none`
means the recursion exceeds the given depth.  The Python default argument
`node=None` is re-interpreted as `self.root` on every call, including the
recursive calls `self.get_height(node.left)` / `self.get_height(node.right)`
on an absent child, which therefore restart the computation at the tree
root. -/
def get_height_rec (root : AVL) : Nat → AVL → Option Int
  | 0, _ => none
  | fuel + 1, n =>
    match (match n with | .nil => root | .node a b c e => AVL.node a b c e) with
    | .nil => some (-1)
    | .node l _ _ r =>
      match l, r with
      | .nil, .nil => some 0
      | _, _ =>
        match get_height_rec root fuel l, get_height_rec root fuel r with
        | some lh, some rh => some (max lh rh + 1)
        | _, _ => none

/-- The three structural invariants of the specification: BST ordering, AVL
balance of true heights, and coherent cached heights. -/
def Inv (t : AVL) : Prop :=
  bstB t = true ∧ balancedB t = true ∧ heightsOk t = true

instance (t : AVL) : Decidable (Inv t) := by
  unfold Inv; infer_instance

/-! Basic rewriting lemmas. -/

@[simp] theorem get_height_nil : get_height AVL.nil = 0 := rfl

@[simp] theorem get_height_node (l : AVL) (d : Int) (h : Nat) (r : AVL) :
    get_height (AVL.node l d h r) = h := rfl

@[simp] theorem real_height_nil : real_height AVL.nil = 0 := rfl

@[simp] theorem real_height_node (l : AVL) (d : Int) (h : Nat) (r : AVL) :
    real_height (AVL.node l d h r) = max (real_height l) (real_height r) + 1 := rfl

@[simp] theorem memB_nil (k : Int) : memB k AVL.nil = false := rfl

@[simp] theorem memB_node (k : Int) (l : AVL) (d : Int) (h : Nat) (r : AVL) :
    memB k (AVL.node l d h r) = ((k == d) || memB k l || memB k r) := rfl

theorem memB_node_iff {k : Int} {l : AVL} {d : Int} {h : Nat} {r : AVL} :
    memB k (AVL.node l d h r) = true ↔ (k = d ∨ memB k l = true ∨ memB k r = true) := by
  simp [Bool.or_eq_true, or_assoc]

@[simp] theorem allB_nil (p : Int → Bool) : allB p AVL.nil = true := rfl

theorem allB_node_iff {p : Int → Bool} {l : AVL} {d : Int} {h : Nat} {r : AVL} :
    allB p (AVL.node l d h r) = true ↔
      (p d = true ∧ allB p l = true ∧ allB p r = true) := by
  simp [allB, Bool.and_eq_true, and_assoc]

@[simp] theorem bstB_nil : bstB AVL.nil = true := rfl

theorem bstB_node_iff {l : AVL} {d : Int} {h : Nat} {r : AVL} :
    bstB (AVL.node l d h r) = true ↔
      (allB (fun k => decide (k < d)) l = true ∧ allB (fun k => decide (d < k)) r = true ∧
       bstB l = true ∧ bstB r = true) := by
  simp [bstB, Bool.and_eq_true, and_assoc]

@[simp] theorem balancedB_nil : balancedB AVL.nil = true := rfl

theorem balancedB_node_iff {l : AVL} {d : Int} {h : Nat} {r : AVL} :
    balancedB (AVL.node l d h r) = true ↔
      (((real_height l : Int) - (real_height r : Int)).natAbs ≤ 1 ∧
       balancedB l = true ∧ balancedB r = true) := by
  simp [balancedB, Bool.and_eq_true, and_assoc]

@[simp] theorem heightsOk_nil : heightsOk AVL.nil = true := rfl

theorem heightsOk_node_iff {l : AVL} {d : Int} {h : Nat} {r : AVL} :
    heightsOk (AVL.node l d h r) = true ↔
      (h = max (get_height l) (get_height r) + 1 ∧
       heightsOk l = true ∧ heightsOk r = true) := by
  simp [heightsOk, Bool.and_eq_true, and_assoc]

theorem get_height_eq_real {t : AVL} (h : heightsOk t = true) :
    get_height t = real_height t := by
  induction t with
  | nil => rfl
  | node l d hh r ihl ihr =>
    rcases heightsOk_node_iff.mp h with ⟨hcache, hl, hr⟩
    simp [hcache, ihl hl, ihr hr]

@[simp] theorem inorder_nil : inorder AVL.nil = [] := rfl

@[simp] theorem inorder_node (l : AVL) (d : Int) (h : Nat) (r : AVL) :
    inorder (AVL.node l d h r) = inorder l ++ d :: inorder r := rfl

theorem mem_inorder {k : Int} {t : AVL} : k ∈ inorder t ↔ memB k t = true := by
  induction t with
  | nil => simp
  | node l d h r ihl ihr =>
    simp [memB_node_iff, ihl, ihr]
    tauto

theorem allB_mem {p : Int → Bool} {t : AVL} {k : Int}
    (ha : allB p t = true) (hm : memB k t = true) : p k = true := by
  induction t with
  | nil => simp at hm
  | node l d h r ihl ihr =>
    rcases allB_node_iff.mp ha with ⟨hd, hl, hr⟩
    rcases memB_node_iff.mp hm with rfl | hk | hk
    · exact hd
    · exact ihl hl hk
    · exact ihr hr hk

theorem allB_of_mem {p : Int → Bool} {t : AVL}
    (h : ∀ k, memB k t = true → p k = true) : allB p t = true := by
  induction t with
  | nil => simp
  | node l d hh r ihl ihr =>
    refine allB_node_iff.mpr ⟨h d ?_, ihl ?_, ihr ?_⟩
    · exact memB_node_iff.mpr (Or.inl rfl)
    · exact fun k hk => h k (memB_node_iff.mpr (Or.inr (Or.inl hk)))
    · exact fun k hk => h k (memB_node_iff.mpr (Or.inr (Or.inr hk)))

theorem allB_imp {p q : Int → Bool} {t : AVL}
    (h : ∀ k, p k = true → q k = true) (ha : allB p t = true) : allB q t = true :=
  allB_of_mem (fun k hk => h k (allB_mem ha hk))

theorem allB_lt_mono {t : AVL} {x y : Int} (hxy : x ≤ y)
    (h : allB (fun k => decide (k < x)) t = true) :
    allB (fun k => decide (k < y)) t = true := by
  refine allB_imp (fun k hk => ?_) h
  simp at hk ⊢; omega

theorem allB_gt_mono {t : AVL} {x y : Int} (hxy : y ≤ x)
    (h : allB (fun k => decide (x < k)) t = true) :
    allB (fun k => decide (y < k)) t = true := by
  refine allB_imp (fun k hk => ?_) h
  simp at hk ⊢; omega

/-- Properties of a node rebuilt with `_update_height` semantics: the cached
field is `1 + max` of the children's cached heights. -/
theorem build_spec {l r : AVL} {d : Int}
    (hbl : bstB l = true) (hbr : bstB r = true)
    (hall : balancedB l = true) (halr : balancedB r = true)
    (hhl : heightsOk l = true) (hhr : heightsOk r = true)
    (hkl : allB (fun k => decide (k < d)) l = true)
    (hkr : allB (fun k => decide (d < k)) r = true)
    (hbal : ((real_height l : Int) - (real_height r : Int)).natAbs ≤ 1) :
    bstB (AVL.node l d (max (get_height l) (get_height r) + 1) r) = true ∧
    balancedB (AVL.node l d (max (get_height l) (get_height r) + 1) r) = true ∧
    heightsOk (AVL.node l d (max (get_height l) (get_height r) + 1) r) = true ∧
    real_height (AVL.node l d (max (get_height l) (get_height r) + 1) r) =
      max (real_height l) (real_height r) + 1 ∧
    get_height (AVL.node l d (max (get_height l) (get_height r) + 1) r) =
      max (real_height l) (real_height r) + 1 ∧
    (∀ k, memB k (AVL.node l d (max (get_height l) (get_height r) + 1) r) = true ↔
      (k = d ∨ memB k l = true ∨ memB k r = true)) := by
  have ghl := get_height_eq_real hhl
  have ghr := get_height_eq_real hhr
  refine ⟨bstB_node_iff.mpr ⟨hkl, hkr, hbl, hbr⟩,
    balancedB_node_iff.mpr ⟨hbal, hall, halr⟩,
    heightsOk_node_iff.mpr ⟨rfl, hhl, hhr⟩,
    by simp, by simp [ghl, ghr], fun k => memB_node_iff⟩

theorem rotate_right_eq (ll : AVL) (lk : Int) (lh : Nat) (lr : AVL)
    (k : Int) (h : Nat) (r : AVL) :
    rotate_right (AVL.node (AVL.node ll lk lh lr) k h r) =
      some (AVL.node ll lk
        (max (get_height ll)
          (get_height (AVL.node lr k (max (get_height lr) (get_height r) + 1) r)) + 1)
        (AVL.node lr k (max (get_height lr) (get_height r) + 1) r)) := rfl

theorem rotate_left_eq (l : AVL) (k : Int) (h : Nat)
    (rl : AVL) (rk : Int) (rh : Nat) (rr : AVL) :
    rotate_left (AVL.node l k h (AVL.node rl rk rh rr)) =
      some (AVL.node
        (AVL.node l k (max (get_height l) (get_height rl) + 1) rl) rk
        (max (get_height (AVL.node l k (max (get_height l) (get_height rl) + 1) rl))
          (get_height rr) + 1)
        rr) := rfl

theorem bstB_sorted {t : AVL} (hb : bstB t = true) :
    List.Pairwise (· < ·) (inorder t) := by
  induction t with
  | nil => simp
  | node l d h r ihl ihr =>
    rcases bstB_node_iff.mp hb with ⟨hal, har, hl, hr⟩
    rw [inorder_node, List.pairwise_append]
    refine ⟨ihl hl, List.pairwise_cons.mpr ⟨?_, ihr hr⟩, ?_⟩
    · intro b hbmem
      have := allB_mem har (mem_inorder.mp hbmem)
      simpa using this
    · intro a hamem b hbmem
      have ha : a < d := by simpa using allB_mem hal (mem_inorder.mp hamem)
      rcases List.mem_cons.mp hbmem with rfl | hbr
      · exact ha
      · have hdb : d < b := by simpa using allB_mem har (mem_inorder.mp hbr)
        exact ha.trans hdb

set_option maxHeartbeats 1600000 in
/-- Behaviour of the insertion rebalancing step when the recursive insertion
went into the left child `l` (so `r` is unchanged): the step succeeds,
restores every invariant, preserves the keys, and either leaves the node
shape alone or rotates, in which case the subtree height is exactly
`real_height r + 2` (the pre-insertion height). -/
theorem rebalance_ins_left_spec
    {l r : AVL} {nd d : Int}
    (hbl : bstB l = true) (hall : balancedB l = true) (hhl : heightsOk l = true)
    (hbr : bstB r = true) (halr : balancedB r = true) (hhr : heightsOk r = true)
    (hkl : allB (fun k => decide (k < nd)) l = true)
    (hkr : allB (fun k => decide (nd < k)) r = true)
    (hub : real_height l ≤ real_height r + 2)
    (hlb : real_height r ≤ real_height l + 1)
    (hgrow : real_height l = real_height r + 2 →
      ∃ a ld h2 b, l = AVL.node a ld h2 b ∧
        ((d < ld ∧ real_height b ≤ real_height r) ∨
         (ld < d ∧ real_height a ≤ real_height r))) :
    ∃ t', rebalance_ins l nd r d = some t' ∧
      bstB t' = true ∧ balancedB t' = true ∧ heightsOk t' = true ∧
      (∀ k, memB k t' = true ↔ (k = nd ∨ memB k l = true ∨ memB k r = true)) ∧
      (t' = AVL.node l nd (max (get_height l) (get_height r) + 1) r ∨
        (real_height t' = real_height r + 2 ∧ real_height l = real_height r + 2)) := by
  have ghl := get_height_eq_real hhl
  have ghr := get_height_eq_real hhr
  by_cases hc1 : (1 : Int) < (get_height l : Int) - (get_height r : Int)
  · have hg : real_height l = real_height r + 2 := by omega
    obtain ⟨a, ld, h2, b, rfl, hcase⟩ := hgrow hg
    obtain ⟨hldnd, hka, hkb⟩ := allB_node_iff.mp hkl
    have hldnd' : ld < nd := by simpa using hldnd
    obtain ⟨hba, hbb, hbsta, hbstb⟩ := bstB_node_iff.mp hbl
    obtain ⟨hbalroot, hbala, hbalb⟩ := balancedB_node_iff.mp hall
    obtain ⟨hcache, hha, hhb⟩ := heightsOk_node_iff.mp hhl
    have gha := get_height_eq_real hha
    have ghb := get_height_eq_real hhb
    have hmaxab : max (real_height a) (real_height b) + 1 = real_height r + 2 := by
      simpa using hg
    rcases hcase with ⟨hdld, hble⟩ | ⟨hldd, hale⟩
    · -- Left-Left: single right rotation
      have hbeq : real_height b = real_height r := by omega
      have haeq : real_height a = real_height r + 1 := by omega
      have heval : rebalance_ins (AVL.node a ld h2 b) nd r d =
          rotate_right (AVL.node (AVL.node a ld h2 b) nd
            (max (get_height (AVL.node a ld h2 b)) (get_height r) + 1) r) := by
        simp only [rebalance_ins]
        rw [if_pos hc1, if_pos hdld]
      obtain ⟨ibst, ibal, ihok, irh, igh, imem⟩ :=
        build_spec hbstb hbr hbalb halr hhb hhr hkb hkr (by omega)
      have hkin : allB (fun k => decide (ld < k))
          (AVL.node b nd (max (get_height b) (get_height r) + 1) r) = true := by
        refine allB_of_mem (fun k hk => ?_)
        rcases (imem k).mp hk with rfl | hk | hk
        · simpa using hldnd'
        · exact allB_mem hbb hk
        · have := allB_mem hkr hk
          simp at this ⊢; omega
      obtain ⟨obst, obal, ohok, orh, ogh, omem⟩ :=
        build_spec hbsta ibst hbala ibal hha ihok hba hkin (by omega)
      refine ⟨_, by rw [heval, rotate_right_eq], obst, obal, ohok, ?_, Or.inr ⟨?_, hg⟩⟩
      · intro k
        rw [omem k, imem k, memB_node_iff]
        tauto
      · omega
    · -- Left-Right: left rotation at the left child, then right rotation
      have haeq : real_height a = real_height r := by omega
      have hbeq : real_height b = real_height r + 1 := by omega
      rcases b with _ | ⟨p, bd, h3, q⟩
      · simp at hbeq
      obtain ⟨hldbd, hkbp, hkbq⟩ := allB_node_iff.mp hbb
      have hldbd' : ld < bd := by simpa using hldbd
      obtain ⟨hbdnd0, hkp, hkq⟩ := allB_node_iff.mp hkb
      have hbdnd : bd < nd := by simpa using hbdnd0
      obtain ⟨hbp, hbq, hbstp, hbstq⟩ := bstB_node_iff.mp hbstb
      obtain ⟨hbalb0, hbalp, hbalq⟩ := balancedB_node_iff.mp hbalb
      obtain ⟨hcb, hhp, hhq⟩ := heightsOk_node_iff.mp hhb
      have ghp := get_height_eq_real hhp
      have ghq := get_height_eq_real hhq
      have hmaxpq : max (real_height p) (real_height q) + 1 = real_height r + 1 := by
        simpa using hbeq
      have heval : rebalance_ins (AVL.node a ld h2 (AVL.node p bd h3 q)) nd r d =
          rotate_right (AVL.node
            (AVL.node (AVL.node a ld (max (get_height a) (get_height p) + 1) p) bd
              (max (get_height (AVL.node a ld (max (get_height a) (get_height p) + 1) p))
                (get_height q) + 1) q)
            nd
            (max (get_height (AVL.node a ld h2 (AVL.node p bd h3 q)))
              (get_height r) + 1) r) := by
        simp only [rebalance_ins]
        rw [if_pos hc1, if_neg (by omega : ¬ d < ld), if_pos hldd, rotate_left_eq]
      -- the three rebuilt nodes
      obtain ⟨i1bst, i1bal, i1hok, i1rh, i1gh, i1mem⟩ :=
        build_spec hbsta hbstp hbala hbalp hha hhp hba
          (allB_gt_mono (le_refl ld) hkbp) (by omega)
      obtain ⟨i2bst, i2bal, i2hok, i2rh, i2gh, i2mem⟩ :=
        build_spec hbstq hbr hbalq halr hhq hhr hkq hkr (by omega)
      have hk1 : allB (fun k => decide (k < bd))
          (AVL.node a ld (max (get_height a) (get_height p) + 1) p) = true := by
        refine allB_of_mem (fun k hk => ?_)
        rcases (i1mem k).mp hk with rfl | hk | hk
        · simpa using hldbd'
        · have := allB_mem hba hk
          simp at this ⊢; omega
        · exact allB_mem hbp hk
      have hk2 : allB (fun k => decide (bd < k))
          (AVL.node q nd (max (get_height q) (get_height r) + 1) r) = true := by
        refine allB_of_mem (fun k hk => ?_)
        rcases (i2mem k).mp hk with rfl | hk | hk
        · simpa using hbdnd
        · exact allB_mem hbq hk
        · have := allB_mem hkr hk
          simp at this ⊢; omega
      obtain ⟨obst, obal, ohok, orh, ogh, omem⟩ :=
        build_spec i1bst i2bst i1bal i2bal i1hok i2hok hk1 hk2 (by omega)
      refine ⟨_, ?_, obst, obal, ohok, ?_, Or.inr ⟨?_, hg⟩⟩
      · rw [heval, rotate_right_eq]
      · intro k
        rw [omem k, i1mem k, i2mem k, memB_node_iff, memB_node_iff]
        tauto
      · omega
  · by_cases hc2 : (get_height l : Int) - (get_height r : Int) < -1
    · omega
    · have heval : rebalance_ins l nd r d =
          some (AVL.node l nd (max (get_height l) (get_height r) + 1) r) := by
        simp only [rebalance_ins]
        rw [if_neg hc1, if_neg hc2]
      obtain ⟨obst, obal, ohok, orh, ogh, omem⟩ :=
        build_spec hbl hbr hall halr hhl hhr hkl hkr (by omega)
      exact ⟨_, heval, obst, obal, ohok, omem, Or.inl rfl⟩

set_option maxHeartbeats 1600000 in
/-- Behaviour of the insertion rebalancing step when the recursive insertion
went into the right child `r` (so `l` is unchanged); mirror image of
`rebalance_ins_left_spec`. -/
theorem rebalance_ins_right_spec
    {l r : AVL} {nd d : Int}
    (hbl : bstB l = true) (hall : balancedB l = true) (hhl : heightsOk l = true)
    (hbr : bstB r = true) (halr : balancedB r = true) (hhr : heightsOk r = true)
    (hkl : allB (fun k => decide (k < nd)) l = true)
    (hkr : allB (fun k => decide (nd < k)) r = true)
    (hub : real_height r ≤ real_height l + 2)
    (hlb : real_height l ≤ real_height r + 1)
    (hgrow : real_height r = real_height l + 2 →
      ∃ a rd h2 b, r = AVL.node a rd h2 b ∧
        ((d < rd ∧ real_height b ≤ real_height l) ∨
         (rd < d ∧ real_height a ≤ real_height l))) :
    ∃ t', rebalance_ins l nd r d = some t' ∧
      bstB t' = true ∧ balancedB t' = true ∧ heightsOk t' = true ∧
      (∀ k, memB k t' = true ↔ (k = nd ∨ memB k l = true ∨ memB k r = true)) ∧
      (t' = AVL.node l nd (max (get_height l) (get_height r) + 1) r ∨
        (real_height t' = real_height l + 2 ∧ real_height r = real_height l + 2)) := by
  have ghl := get_height_eq_real hhl
  have ghr := get_height_eq_real hhr
  have hc1 : ¬ (1 : Int) < (get_height l : Int) - (get_height r : Int) := by omega
  by_cases hc2 : (get_height l : Int) - (get_height r : Int) < -1
  · have hg : real_height r = real_height l + 2 := by omega
    obtain ⟨a, rd, h2, b, rfl, hcase⟩ := hgrow hg
    obtain ⟨hndrd, hka, hkb⟩ := allB_node_iff.mp hkr
    have hndrd' : nd < rd := by simpa using hndrd
    obtain ⟨hra, hrb, hbsta, hbstb⟩ := bstB_node_iff.mp hbr
    obtain ⟨hbalroot, hbala, hbalb⟩ := balancedB_node_iff.mp halr
    obtain ⟨hcache, hha, hhb⟩ := heightsOk_node_iff.mp hhr
    have gha := get_height_eq_real hha
    have ghb := get_height_eq_real hhb
    have hmaxab : max (real_height a) (real_height b) + 1 = real_height l + 2 := by
      simpa using hg
    rcases hcase with ⟨hdrd, hble⟩ | ⟨hrdd, hale⟩
    · -- Right-Left: right rotation at the right child, then left rotation
      have hbeq : real_height b ≤ real_height l := hble
      have haeq : real_height a = real_height l + 1 := by omega
      rcases a with _ | ⟨p, ad, h3, q⟩
      · simp at haeq
      obtain ⟨hadrd0, hap, haq⟩ := allB_node_iff.mp hra
      have hadrd : ad < rd := by simpa using hadrd0
      obtain ⟨hndad0, hkp, hkq⟩ := allB_node_iff.mp hka
      have hndad : nd < ad := by simpa using hndad0
      obtain ⟨hbp, hbq, hbstp, hbstq⟩ := bstB_node_iff.mp hbsta
      obtain ⟨hbala0, hbalp, hbalq⟩ := balancedB_node_iff.mp hbala
      obtain ⟨hca, hhp, hhq⟩ := heightsOk_node_iff.mp hha
      have ghp := get_height_eq_real hhp
      have ghq := get_height_eq_real hhq
      have hmaxpq : max (real_height p) (real_height q) + 1 = real_height l + 1 := by
        simpa using haeq
      have hbl2 : real_height b = real_height l := by omega
      have heval : rebalance_ins l nd (AVL.node (AVL.node p ad h3 q) rd h2 b) d =
          rotate_left (AVL.node l nd
            (max (get_height l)
              (get_height (AVL.node (AVL.node p ad h3 q) rd h2 b)) + 1)
            (AVL.node p ad
              (max (get_height p)
                (get_height (AVL.node q rd (max (get_height q) (get_height b) + 1) b)) + 1)
              (AVL.node q rd (max (get_height q) (get_height b) + 1) b))) := by
        simp only [rebalance_ins]
        rw [if_neg hc1, if_pos hc2, if_neg (by omega : ¬ rd < d), if_pos hdrd,
          rotate_right_eq]
      obtain ⟨i1bst, i1bal, i1hok, i1rh, i1gh, i1mem⟩ :=
        build_spec hbl hbstp hall hbalp hhl hhp hkl hkp (by omega)
      obtain ⟨i2bst, i2bal, i2hok, i2rh, i2gh, i2mem⟩ :=
        build_spec hbstq hbstb hbalq hbalb hhq hhb haq hrb (by omega)
      have hk1 : allB (fun k => decide (k < ad))
          (AVL.node l nd (max (get_height l) (get_height p) + 1) p) = true := by
        refine allB_of_mem (fun k hk => ?_)
        rcases (i1mem k).mp hk with rfl | hk | hk
        · simpa using hndad
        · have := allB_mem hkl hk
          simp at this ⊢; omega
        · exact allB_mem hbp hk
      have hk2 : allB (fun k => decide (ad < k))
          (AVL.node q rd (max (get_height q) (get_height b) + 1) b) = true := by
        refine allB_of_mem (fun k hk => ?_)
        rcases (i2mem k).mp hk with rfl | hk | hk
        · simpa using hadrd
        · exact allB_mem hbq hk
        · have := allB_mem hrb hk
          simp at this ⊢; omega
      obtain ⟨obst, obal, ohok, orh, ogh, omem⟩ :=
        build_spec i1bst i2bst i1bal i2bal i1hok i2hok hk1 hk2 (by omega)
      refine ⟨_, ?_, obst, obal, ohok, ?_, Or.inr ⟨?_, hg⟩⟩
      · rw [heval, rotate_left_eq]
      · intro k
        rw [omem k, i1mem k, i2mem k, memB_node_iff, memB_node_iff]
        tauto
      · omega
    · -- Right-Right: single left rotation
      have haeq : real_height a = real_height l := by omega
      have hbeq : real_height b = real_height l + 1 := by omega
      have heval : rebalance_ins l nd (AVL.node a rd h2 b) d =
          rotate_left (AVL.node l nd
            (max (get_height l) (get_height (AVL.node a rd h2 b)) + 1)
            (AVL.node a rd h2 b)) := by
        simp only [rebalance_ins]
        rw [if_neg hc1, if_pos hc2, if_pos hrdd]
      obtain ⟨i1bst, i1bal, i1hok, i1rh, i1gh, i1mem⟩ :=
        build_spec hbl hbsta hall hbala hhl hha hkl hka (by omega)
      have hk1 : allB (fun k => decide (k < rd))
          (AVL.node l nd (max (get_height l) (get_height a) + 1) a) = true := by
        refine allB_of_mem (fun k hk => ?_)
        rcases (i1mem k).mp hk with rfl | hk | hk
        · simpa using hndrd'
        · have := allB_mem hkl hk
          simp at this ⊢; omega
        · exact allB_mem hra hk
      obtain ⟨obst, obal, ohok, orh, ogh, omem⟩ :=
        build_spec i1bst hbstb i1bal hbalb i1hok hhb hk1 hrb (by omega)
      refine ⟨_, ?_, obst, obal, ohok, ?_, Or.inr ⟨?_, hg⟩⟩
      · rw [heval, rotate_left_eq]
      · intro k
        rw [omem k, i1mem k, memB_node_iff]
        tauto
      · omega
  · have heval : rebalance_ins l nd r d =
        some (AVL.node l nd (max (get_height l) (get_height r) + 1) r) := by
      simp only [rebalance_ins]
      rw [if_neg hc1, if_neg hc2]
    obtain ⟨obst, obal, ohok, orh, ogh, omem⟩ :=
      build_spec hbl hbr hall halr hhl hhr hkl hkr (by omega)
    exact ⟨_, heval, obst, obal, ohok, omem, Or.inl rfl⟩

set_option maxHeartbeats 1600000 in
/-- Main inductive specification of `_insert_avl` on an invariant-satisfying
subtree: it never crashes, preserves all three invariants, adds exactly the
key `d` to the key set, reports a size increment iff `d` was absent, is a
no-op on a present key, grows the height by at most one, and when the height
does grow the root key and the un-inserted child are unchanged while the
child on `d`'s side grew by exactly one. -/
theorem insert_avl_spec (d : Int) :
    ∀ t : AVL, bstB t = true → balancedB t = true → heightsOk t = true →
    ∃ t' inc, insert_avl t d = some (t', inc) ∧
      bstB t' = true ∧ balancedB t' = true ∧ heightsOk t' = true ∧
      (∀ k, memB k t' = true ↔ (memB k t = true ∨ k = d)) ∧
      (inc = true ↔ memB d t = false) ∧
      (inc = false → t' = t) ∧
      real_height t ≤ real_height t' ∧ real_height t' ≤ real_height t + 1 ∧
      (∀ lt k hh rt, t = AVL.node lt k hh rt →
        real_height t' = real_height t + 1 →
        ((d < k ∧ ∃ lt' h2, t' = AVL.node lt' k h2 rt ∧
            real_height lt' = real_height lt + 1) ∨
         (k < d ∧ ∃ rt' h2, t' = AVL.node lt k h2 rt' ∧
            real_height rt' = real_height rt + 1))) := by
  intro t
  induction t with
  | nil =>
    intro _ _ _
    refine ⟨AVL.node AVL.nil d 1 AVL.nil, true, rfl, by simp [bstB, allB],
      by simp [balancedB], by simp [heightsOk, get_height], ?_, by simp, by simp,
      by simp, by simp, ?_⟩
    · intro k; simp [memB_node_iff]
    · intro lt k hh rt h; exact absurd h (by simp)
  | node l nd nh r ihl ihr =>
    intro hbst hbal hhok
    obtain ⟨hkl, hkr, hbl, hbr⟩ := bstB_node_iff.mp hbst
    obtain ⟨hbal0, hball, hbalr⟩ := balancedB_node_iff.mp hbal
    obtain ⟨hcache, hhl, hhr⟩ := heightsOk_node_iff.mp hhok
    have ghl := get_height_eq_real hhl
    have ghr := get_height_eq_real hhr
    rcases lt_trichotomy d nd with hdn | hdn | hdn
    · -- insertion goes left
      obtain ⟨l2, inc, heq, hbst2, hbal2, hhok2, hmem2, hinc2, hnoop2, hlo2, hhi2, hsh2⟩ :=
        ihl hbl hball hhl
      have hkl2 : allB (fun k => decide (k < nd)) l2 = true := by
        refine allB_of_mem (fun k hk => ?_)
        rcases (hmem2 k).mp hk with hk | rfl
        · exact allB_mem hkl hk
        · simp; omega
      have hgrow : real_height l2 = real_height r + 2 →
          ∃ a ld h2 b, l2 = AVL.node a ld h2 b ∧
            ((d < ld ∧ real_height b ≤ real_height r) ∨
             (ld < d ∧ real_height a ≤ real_height r)) := by
        intro hg
        rcases l with _ | ⟨a0, k0, h0, b0⟩
        · simp at hlo2 hhi2 hbal0
          omega
        · have hgl : real_height l2 =
              real_height (AVL.node a0 k0 h0 b0) + 1 := by
            simp at hbal0 hhi2 hlo2 ⊢
            omega
          rcases hsh2 a0 k0 h0 b0 rfl hgl with ⟨hdk, lt', h2', rfl, hlt'⟩ |
            ⟨hkd, rt', h2', rfl, hrt'⟩
          · refine ⟨lt', k0, h2', b0, rfl, Or.inl ⟨hdk, ?_⟩⟩
            simp at hbal0 hg hgl ⊢
            omega
          · refine ⟨a0, k0, h2', rt', rfl, Or.inr ⟨hkd, ?_⟩⟩
            simp at hbal0 hg hgl ⊢
            omega
      obtain ⟨t2, heq2, obst, obal, ohok, omem, hshape⟩ :=
        rebalance_ins_left_spec hbst2 hbal2 hhok2 hbr hbalr hhr hkl2 hkr
          (by omega) (by omega) hgrow
      have heval : insert_avl (AVL.node l nd nh r) d = some (t2, inc) := by
        simp only [insert_avl, if_pos hdn, heq, heq2]
      have hmdr : memB d r = false := by
        cases hmd : memB d r
        · rfl
        · have := allB_mem hkr hmd
          simp at this; omega
      have hdnd : (d == nd) = false := beq_eq_false_iff_ne.mpr hdn.ne
      refine ⟨t2, inc, heval, obst, obal, ohok, ?_, ?_, ?_, ?_, ?_, ?_⟩
      · intro k
        rw [omem k, hmem2 k, memB_node_iff]
        constructor
        · rintro (rfl | (h | rfl) | h)
          · exact Or.inl (Or.inl rfl)
          · exact Or.inl (Or.inr (Or.inl h))
          · exact Or.inr rfl
          · exact Or.inl (Or.inr (Or.inr h))
        · rintro ((rfl | h | h) | rfl)
          · exact Or.inl rfl
          · exact Or.inr (Or.inl (Or.inl h))
          · exact Or.inr (Or.inr h)
          · exact Or.inr (Or.inl (Or.inr rfl))
      · rw [hinc2, memB_node, hmdr, hdnd]
        simp
      · intro hf
        have hl2 : l2 = l := hnoop2 hf
        subst hl2
        rcases hshape with rfl | ⟨hh1, hh2⟩
        · rw [hcache]
        · exfalso; omega
      · rcases hshape with rfl | ⟨hh1, hh2⟩
        · simp; omega
        · simp; omega
      · rcases hshape with rfl | ⟨hh1, hh2⟩
        · simp; omega
        · simp; omega
      · intro lt k hh rt heqn hg
        injection heqn with e1 e2 e3 e4
        subst e1; subst e2; subst e3; subst e4
        rcases hshape with rfl | ⟨hh1, hh2⟩
        · refine Or.inl ⟨hdn, l2, max (get_height l2) (get_height r) + 1, rfl, ?_⟩
          simp at hg
          omega
        · exfalso
          simp at hg
          omega
    · -- key already present at this node
      subst hdn
      have heval : insert_avl (AVL.node l d nh r) d =
          some (AVL.node l d nh r, false) := by
        simp only [insert_avl, if_neg (lt_irrefl d)]
      refine ⟨AVL.node l d nh r, false, heval, hbst, hbal, hhok, ?_, ?_,
        fun _ => rfl, le_refl _, by omega, ?_⟩
      · intro k
        rw [memB_node_iff]
        exact ⟨Or.inl, fun h => h.elim id Or.inl⟩
      · simp [memB_node_iff]
      · intro lt k hh rt heqn hg
        exfalso; omega
    · -- insertion goes right
      obtain ⟨r2, inc, heq, hbst2, hbal2, hhok2, hmem2, hinc2, hnoop2, hlo2, hhi2, hsh2⟩ :=
        ihr hbr hbalr hhr
      have hkr2 : allB (fun k => decide (nd < k)) r2 = true := by
        refine allB_of_mem (fun k hk => ?_)
        rcases (hmem2 k).mp hk with hk | rfl
        · exact allB_mem hkr hk
        · simp; omega
      have hgrow : real_height r2 = real_height l + 2 →
          ∃ a rd h2 b, r2 = AVL.node a rd h2 b ∧
            ((d < rd ∧ real_height b ≤ real_height l) ∨
             (rd < d ∧ real_height a ≤ real_height l)) := by
        intro hg
        rcases r with _ | ⟨a0, k0, h0, b0⟩
        · simp at hlo2 hhi2 hbal0
          omega
        · have hgr : real_height r2 =
              real_height (AVL.node a0 k0 h0 b0) + 1 := by
            simp at hbal0 hhi2 hlo2 ⊢
            omega
          rcases hsh2 a0 k0 h0 b0 rfl hgr with ⟨hdk, lt', h2', rfl, hlt'⟩ |
            ⟨hkd, rt', h2', rfl, hrt'⟩
          · refine ⟨lt', k0, h2', b0, rfl, Or.inl ⟨hdk, ?_⟩⟩
            simp at hbal0 hg hgr ⊢
            omega
          · refine ⟨a0, k0, h2', rt', rfl, Or.inr ⟨hkd, ?_⟩⟩
            simp at hbal0 hg hgr ⊢
            omega
      obtain ⟨t2, heq2, obst, obal, ohok, omem, hshape⟩ :=
        rebalance_ins_right_spec hbl hball hhl hbst2 hbal2 hhok2 hkl hkr2
          (by omega) (by omega) hgrow
      have heval : insert_avl (AVL.node l nd nh r) d = some (t2, inc) := by
        simp only [insert_avl, if_neg (by omega : ¬ d < nd), if_pos hdn, heq, heq2]
      have hmdl : memB d l = false := by
        cases hmd : memB d l
        · rfl
        · have := allB_mem hkl hmd
          simp at this; omega
      have hdnd : (d == nd) = false := beq_eq_false_iff_ne.mpr hdn.ne'
      refine ⟨t2, inc, heval, obst, obal, ohok, ?_, ?_, ?_, ?_, ?_, ?_⟩
      · intro k
        rw [omem k, hmem2 k, memB_node_iff]
        constructor
        · rintro (rfl | h | (h | rfl))
          · exact Or.inl (Or.inl rfl)
          · exact Or.inl (Or.inr (Or.inl h))
          · exact Or.inl (Or.inr (Or.inr h))
          · exact Or.inr rfl
        · rintro ((rfl | h | h) | rfl)
          · exact Or.inl rfl
          · exact Or.inr (Or.inl h)
          · exact Or.inr (Or.inr (Or.inl h))
          · exact Or.inr (Or.inr (Or.inr rfl))
      · rw [hinc2, memB_node, hmdl, hdnd]
        simp
      · intro hf
        have hr2 : r2 = r := hnoop2 hf
        subst hr2
        rcases hshape with rfl | ⟨hh1, hh2⟩
        · rw [hcache]
        · exfalso; omega
      · rcases hshape with rfl | ⟨hh1, hh2⟩
        · simp; omega
        · simp; omega
      · rcases hshape with rfl | ⟨hh1, hh2⟩
        · simp; omega
        · simp; omega
      · intro lt k hh rt heqn hg
        injection heqn with e1 e2 e3 e4
        subst e1; subst e2; subst e3; subst e4
        rcases hshape with rfl | ⟨hh1, hh2⟩
        · refine Or.inr ⟨hdn, r2, max (get_height l) (get_height r2) + 1, rfl, ?_⟩
          simp at hg
          omega
        · exfalso
          simp at hg
          omega

/-- On a non-empty BST subtree `_find_min_node` returns the minimum key. -/
theorem find_min_node_spec : ∀ t : AVL, bstB t = true → t ≠ AVL.nil →
    ∃ s, find_min_node t = some s ∧ memB s t = true ∧
      ∀ k, memB k t = true → s ≤ k := by
  intro t
  induction t with
  | nil => intro _ h; exact absurd rfl h
  | node l d h r ihl ihr =>
    intro hbst _
    obtain ⟨hkl, hkr, hbl, hbr⟩ := bstB_node_iff.mp hbst
    rcases l with _ | ⟨a, b, c, e⟩
    · refine ⟨d, rfl, memB_node_iff.mpr (Or.inl rfl), ?_⟩
      intro k hk
      rcases memB_node_iff.mp hk with rfl | hk | hk
      · exact le_refl k
      · simp at hk
      · have := allB_mem hkr hk; simp at this; omega
    · obtain ⟨s, hfind, hmem, hlow⟩ := ihl hbl (by simp)
      have hsd : s < d := by
        have := allB_mem hkl hmem; simpa using this
      refine ⟨s, hfind, memB_node_iff.mpr (Or.inr (Or.inl hmem)), ?_⟩
      intro k hk
      rcases memB_node_iff.mp hk with rfl | hk | hk
      · omega
      · exact hlow k hk
      · have := allB_mem hkr hk; simp at this; omega

set_option maxHeartbeats 1600000 in
/-- Behaviour of the deletion rebalancing step: under the invariants of the
two children and a height gap of at most 2 it succeeds, restores every
invariant, preserves the keys, shrinks or keeps the subtree height within one
of `max` of the children's heights, and is the plain height-update rebuild
whenever the children's heights already differ by at most 1. -/
theorem rebalance_del_spec
    {l r : AVL} {nd : Int}
    (hbl : bstB l = true) (hall : balancedB l = true) (hhl : heightsOk l = true)
    (hbr : bstB r = true) (halr : balancedB r = true) (hhr : heightsOk r = true)
    (hkl : allB (fun k => decide (k < nd)) l = true)
    (hkr : allB (fun k => decide (nd < k)) r = true)
    (hub : real_height l ≤ real_height r + 2)
    (hlb : real_height r ≤ real_height l + 2) :
    ∃ t', rebalance_del l nd r = some t' ∧
      bstB t' = true ∧ balancedB t' = true ∧ heightsOk t' = true ∧
      (∀ k, memB k t' = true ↔ (k = nd ∨ memB k l = true ∨ memB k r = true)) ∧
      max (real_height l) (real_height r) ≤ real_height t' ∧
      real_height t' ≤ max (real_height l) (real_height r) + 1 ∧
      (((real_height l : Int) - (real_height r : Int)).natAbs ≤ 1 →
        t' = AVL.node l nd (max (get_height l) (get_height r) + 1) r) := by
  have ghl := get_height_eq_real hhl
  have ghr := get_height_eq_real hhr
  by_cases hc1 : (1 : Int) < (get_height l : Int) - (get_height r : Int)
  · -- left-heavy by exactly 2
    have hg : real_height l = real_height r + 2 := by omega
    rcases l with _ | ⟨a, ld, h2, b⟩
    · simp at hg
    obtain ⟨hldnd0, hka, hkb⟩ := allB_node_iff.mp hkl
    have hldnd : ld < nd := by simpa using hldnd0
    obtain ⟨hba, hbb, hbsta, hbstb⟩ := bstB_node_iff.mp hbl
    obtain ⟨hbalroot, hbala, hbalb⟩ := balancedB_node_iff.mp hall
    obtain ⟨hcache, hha, hhb⟩ := heightsOk_node_iff.mp hhl
    have gha := get_height_eq_real hha
    have ghb := get_height_eq_real hhb
    have hmaxab : max (real_height a) (real_height b) + 1 = real_height r + 2 := by
      simpa using hg
    by_cases hgb : (0 : Int) ≤ get_balance (AVL.node a ld h2 b)
    · -- left child not right-heavier: single right rotation
      have hgb' : real_height b ≤ real_height a := by
        simp only [get_balance, get_height_node] at hgb
        omega
      have haeq : real_height a = real_height r + 1 := by omega
      have heval : rebalance_del (AVL.node a ld h2 b) nd r =
          rotate_right (AVL.node (AVL.node a ld h2 b) nd
            (max (get_height (AVL.node a ld h2 b)) (get_height r) + 1) r) := by
        simp only [rebalance_del]
        rw [if_pos ⟨hc1, hgb⟩]
      obtain ⟨ibst, ibal, ihok, irh, igh, imem⟩ :=
        build_spec hbstb hbr hbalb halr hhb hhr hkb hkr (by omega)
      have hkin : allB (fun k => decide (ld < k))
          (AVL.node b nd (max (get_height b) (get_height r) + 1) r) = true := by
        refine allB_of_mem (fun k hk => ?_)
        rcases (imem k).mp hk with rfl | hk | hk
        · simpa using hldnd
        · exact allB_mem hbb hk
        · have := allB_mem hkr hk
          simp at this ⊢; omega
      obtain ⟨obst, obal, ohok, orh, ogh, omem⟩ :=
        build_spec hbsta ibst hbala ibal hha ihok hba hkin (by omega)
      refine ⟨_, by rw [heval, rotate_right_eq], obst, obal, ohok, ?_, ?_, ?_, ?_⟩
      · intro k
        rw [omem k, imem k, memB_node_iff]
        tauto
      · simp only [orh, irh]; simp; omega
      · simp only [orh, irh]; simp; omega
      · intro habs; exfalso; simp at habs; omega
    · -- left child right-heavier: double rotation
      have hgb' : real_height a < real_height b := by
        simp only [get_balance, get_height_node, not_le] at hgb
        omega
      have hbeq : real_height b = real_height r + 1 := by omega
      have haeq : real_height a = real_height r := by omega
      rcases b with _ | ⟨p, bd, h3, q⟩
      · simp at hbeq
      obtain ⟨hldbd0, hkbp, hkbq⟩ := allB_node_iff.mp hbb
      have hldbd : ld < bd := by simpa using hldbd0
      obtain ⟨hbdnd0, hkp, hkq⟩ := allB_node_iff.mp hkb
      have hbdnd : bd < nd := by simpa using hbdnd0
      obtain ⟨hbp, hbq, hbstp, hbstq⟩ := bstB_node_iff.mp hbstb
      obtain ⟨hbalb0, hbalp, hbalq⟩ := balancedB_node_iff.mp hbalb
      obtain ⟨hcb, hhp, hhq⟩ := heightsOk_node_iff.mp hhb
      have ghp := get_height_eq_real hhp
      have ghq := get_height_eq_real hhq
      have hmaxpq : max (real_height p) (real_height q) + 1 = real_height r + 1 := by
        simpa using hbeq
      have heval : rebalance_del (AVL.node a ld h2 (AVL.node p bd h3 q)) nd r =
          rotate_right (AVL.node
            (AVL.node (AVL.node a ld (max (get_height a) (get_height p) + 1) p) bd
              (max (get_height (AVL.node a ld (max (get_height a) (get_height p) + 1) p))
                (get_height q) + 1) q)
            nd
            (max (get_height (AVL.node a ld h2 (AVL.node p bd h3 q)))
              (get_height r) + 1) r) := by
        simp only [rebalance_del]
        rw [if_neg (fun hand => hgb hand.2), if_pos ⟨hc1, not_le.mp hgb⟩,
          rotate_left_eq]
      obtain ⟨i1bst, i1bal, i1hok, i1rh, i1gh, i1mem⟩ :=
        build_spec hbsta hbstp hbala hbalp hha hhp hba
          (allB_gt_mono (le_refl ld) hkbp) (by omega)
      obtain ⟨i2bst, i2bal, i2hok, i2rh, i2gh, i2mem⟩ :=
        build_spec hbstq hbr hbalq halr hhq hhr hkq hkr (by omega)
      have hk1 : allB (fun k => decide (k < bd))
          (AVL.node a ld (max (get_height a) (get_height p) + 1) p) = true := by
        refine allB_of_mem (fun k hk => ?_)
        rcases (i1mem k).mp hk with rfl | hk | hk
        · simpa using hldbd
        · have := allB_mem hba hk
          simp at this ⊢; omega
        · exact allB_mem hbp hk
      have hk2 : allB (fun k => decide (bd < k))
          (AVL.node q nd (max (get_height q) (get_height r) + 1) r) = true := by
        refine allB_of_mem (fun k hk => ?_)
        rcases (i2mem k).mp hk with rfl | hk | hk
        · simpa using hbdnd
        · exact allB_mem hbq hk
        · have := allB_mem hkr hk
          simp at this ⊢; omega
      obtain ⟨obst, obal, ohok, orh, ogh, omem⟩ :=
        build_spec i1bst i2bst i1bal i2bal i1hok i2hok hk1 hk2 (by omega)
      refine ⟨_, by rw [heval, rotate_right_eq], obst, obal, ohok, ?_, ?_, ?_, ?_⟩
      · intro k
        rw [omem k, i1mem k, i2mem k, memB_node_iff, memB_node_iff]
        tauto
      · simp only [orh, i1rh, i2rh]; simp; omega
      · simp only [orh, i1rh, i2rh]; simp; omega
      · intro habs; exfalso; simp at habs; omega
  · by_cases hc2 : (get_height l : Int) - (get_height r : Int) < -1
    · -- right-heavy by exactly 2
      have hg : real_height r = real_height l + 2 := by omega
      rcases r with _ | ⟨a, rd, h2, b⟩
      · simp at hg
      obtain ⟨hndrd0, hka, hkb⟩ := allB_node_iff.mp hkr
      have hndrd : nd < rd := by simpa using hndrd0
      obtain ⟨hra, hrb, hbsta, hbstb⟩ := bstB_node_iff.mp hbr
      obtain ⟨hbalroot, hbala, hbalb⟩ := balancedB_node_iff.mp halr
      obtain ⟨hcache, hha, hhb⟩ := heightsOk_node_iff.mp hhr
      have gha := get_height_eq_real hha
      have ghb := get_height_eq_real hhb
      have hmaxab : max (real_height a) (real_height b) + 1 = real_height l + 2 := by
        simpa using hg
      by_cases hgb : get_balance (AVL.node a rd h2 b) ≤ 0
      · -- right child not left-heavier: single left rotation
        have hgb' : real_height a ≤ real_height b := by
          simp only [get_balance, get_height_node] at hgb
          omega
        have hbeq : real_height b = real_height l + 1 := by omega
        have heval : rebalance_del l nd (AVL.node a rd h2 b) =
            rotate_left (AVL.node l nd
              (max (get_height l) (get_height (AVL.node a rd h2 b)) + 1)
              (AVL.node a rd h2 b)) := by
          simp only [rebalance_del]
          rw [if_neg (fun hand => absurd hand.1 hc1),
            if_neg (fun hand => absurd hand.1 hc1), if_pos ⟨hc2, hgb⟩]
        obtain ⟨i1bst, i1bal, i1hok, i1rh, i1gh, i1mem⟩ :=
          build_spec hbl hbsta hall hbala hhl hha hkl hka (by omega)
        have hk1 : allB (fun k => decide (k < rd))
            (AVL.node l nd (max (get_height l) (get_height a) + 1) a) = true := by
          refine allB_of_mem (fun k hk => ?_)
          rcases (i1mem k).mp hk with rfl | hk | hk
          · simpa using hndrd
          · have := allB_mem hkl hk
            simp at this ⊢; omega
          · exact allB_mem hra hk
        obtain ⟨obst, obal, ohok, orh, ogh, omem⟩ :=
          build_spec i1bst hbstb i1bal hbalb i1hok hhb hk1 hrb (by omega)
        refine ⟨_, by rw [heval, rotate_left_eq], obst, obal, ohok, ?_, ?_, ?_, ?_⟩
        · intro k
          rw [omem k, i1mem k, memB_node_iff]
          tauto
        · simp only [orh, i1rh]; simp; omega
        · simp only [orh, i1rh]; simp; omega
        · intro habs; exfalso; simp at habs; omega
      · -- right child left-heavier: double rotation
        have hgb' : real_height b < real_height a := by
          simp only [get_balance, get_height_node, not_le] at hgb
          omega
        have haeq : real_height a = real_height l + 1 := by omega
        have hbeq : real_height b = real_height l := by omega
        rcases a with _ | ⟨p, ad, h3, q⟩
        · simp at haeq
        obtain ⟨hadrd0, hap, haq⟩ := allB_node_iff.mp hra
        have hadrd : ad < rd := by simpa using hadrd0
        obtain ⟨hndad0, hkp, hkq⟩ := allB_node_iff.mp hka
        have hndad : nd < ad := by simpa using hndad0
        obtain ⟨hbp, hbq, hbstp, hbstq⟩ := bstB_node_iff.mp hbsta
        obtain ⟨hbala0, hbalp, hbalq⟩ := balancedB_node_iff.mp hbala
        obtain ⟨hca, hhp, hhq⟩ := heightsOk_node_iff.mp hha
        have ghp := get_height_eq_real hhp
        have ghq := get_height_eq_real hhq
        have hmaxpq : max (real_height p) (real_height q) + 1 =
            real_height l + 1 := by
          simpa using haeq
        have heval : rebalance_del l nd
            (AVL.node (AVL.node p ad h3 q) rd h2 b) =
            rotate_left (AVL.node l nd
              (max (get_height l)
                (get_height (AVL.node (AVL.node p ad h3 q) rd h2 b)) + 1)
              (AVL.node p ad
                (max (get_height p)
                  (get_height (AVL.node q rd (max (get_height q) (get_height b) + 1) b)) + 1)
                (AVL.node q rd (max (get_height q) (get_height b) + 1) b))) := by
          simp only [rebalance_del]
          rw [if_neg (fun hand => absurd hand.1 hc1),
            if_neg (fun hand => absurd hand.1 hc1),
            if_neg (fun hand => hgb hand.2), if_pos ⟨hc2, not_le.mp hgb⟩,
            rotate_right_eq]
        obtain ⟨i1bst, i1bal, i1hok, i1rh, i1gh, i1mem⟩ :=
          build_spec hbl hbstp hall hbalp hhl hhp hkl hkp (by omega)
        obtain ⟨i2bst, i2bal, i2hok, i2rh, i2gh, i2mem⟩ :=
          build_spec hbstq hbstb hbalq hbalb hhq hhb haq hrb (by omega)
        have hk1 : allB (fun k => decide (k < ad))
            (AVL.node l nd (max (get_height l) (get_height p) + 1) p) = true := by
          refine allB_of_mem (fun k hk => ?_)
          rcases (i1mem k).mp hk with rfl | hk | hk
          · simpa using hndad
          · have := allB_mem hkl hk
            simp at this ⊢; omega
          · exact allB_mem hbp hk
        have hk2 : allB (fun k => decide (ad < k))
            (AVL.node q rd (max (get_height q) (get_height b) + 1) b) = true := by
          refine allB_of_mem (fun k hk => ?_)
          rcases (i2mem k).mp hk with rfl | hk | hk
          · simpa using hadrd
          · exact allB_mem hbq hk
          · have := allB_mem hrb hk
            simp at this ⊢; omega
        obtain ⟨obst, obal, ohok, orh, ogh, omem⟩ :=
          build_spec i1bst i2bst i1bal i2bal i1hok i2hok hk1 hk2 (by omega)
        refine ⟨_, by rw [heval, rotate_left_eq], obst, obal, ohok, ?_, ?_, ?_, ?_⟩
        · intro k
          rw [omem k, i1mem k, i2mem k, memB_node_iff, memB_node_iff]
          tauto
        · simp only [orh, i1rh, i2rh]; simp; omega
        · simp only [orh, i1rh, i2rh]; simp; omega
        · intro habs; exfalso; simp at habs; omega
    · -- already balanced: plain rebuild
      have heval : rebalance_del l nd r =
          some (AVL.node l nd (max (get_height l) (get_height r) + 1) r) := by
        simp only [rebalance_del]
        rw [if_neg (fun hand => absurd hand.1 hc1),
          if_neg (fun hand => absurd hand.1 hc1),
          if_neg (fun hand => absurd hand.1 hc2),
          if_neg (fun hand => absurd hand.1 hc2)]
      obtain ⟨obst, obal, ohok, orh, ogh, omem⟩ :=
        build_spec hbl hbr hall halr hhl hhr hkl hkr (by omega)
      refine ⟨_, heval, obst, obal, ohok, omem, ?_, ?_, fun _ => rfl⟩
      · rw [orh]; omega
      · rw [orh]

set_option maxHeartbeats 1600000 in
/-- Main inductive specification of `_delete_avl` on an invariant-satisfying
subtree: it never crashes, preserves all three invariants, removes exactly
the key `d` from the key set, the number `c` of `self.size -= 1` executions
is `0` iff `d` was absent, the call is a no-op on an absent key, and the
height shrinks by at most one. -/
theorem delete_avl_spec :
    ∀ t : AVL, bstB t = true → balancedB t = true → heightsOk t = true →
    ∀ d : Int, ∃ t' c, delete_avl t d = some (t', c) ∧
      bstB t' = true ∧ balancedB t' = true ∧ heightsOk t' = true ∧
      (∀ k, memB k t' = true ↔ (memB k t = true ∧ k ≠ d)) ∧
      (c = 0 ↔ memB d t = false) ∧
      (c = 0 → t' = t) ∧
      real_height t' ≤ real_height t ∧ real_height t ≤ real_height t' + 1 := by
  intro t
  induction t with
  | nil =>
    intro _ _ _ d
    refine ⟨AVL.nil, 0, rfl, by simp, by simp, by simp, by simp, by simp,
      fun _ => rfl, le_refl _, by omega⟩
  | node l nd nh r ihl ihr =>
    intro hbst hbal hhok d
    obtain ⟨hkl, hkr, hbl, hbr⟩ := bstB_node_iff.mp hbst
    obtain ⟨hbal0, hball, hbalr⟩ := balancedB_node_iff.mp hbal
    obtain ⟨hcache, hhl, hhr⟩ := heightsOk_node_iff.mp hhok
    have ghl := get_height_eq_real hhl
    have ghr := get_height_eq_real hhr
    rcases lt_trichotomy d nd with hdn | hdn | hdn
    · -- deletion goes left
      obtain ⟨l2, c, heq, hbst2, hbal2, hhok2, hmem2, hinc2, hnoop2, hlo2, hhi2⟩ :=
        ihl hbl hball hhl d
      have hkl2 : allB (fun k => decide (k < nd)) l2 = true := by
        refine allB_of_mem (fun k hk => ?_)
        exact allB_mem hkl ((hmem2 k).mp hk).1
      obtain ⟨t2, heq2, obst, obal, ohok, omem, holo, hohi, hofix⟩ :=
        rebalance_del_spec hbst2 hbal2 hhok2 hbr hbalr hhr hkl2 hkr
          (by omega) (by omega)
      have heval : delete_avl (AVL.node l nd nh r) d = some (t2, c) := by
        simp only [delete_avl, if_pos hdn, heq, heq2]
      have hmdr : memB d r = false := by
        cases hmd : memB d r
        · rfl
        · have := allB_mem hkr hmd
          simp at this; omega
      have hdnd : (d == nd) = false := beq_eq_false_iff_ne.mpr hdn.ne
      refine ⟨t2, c, heval, obst, obal, ohok, ?_, ?_, ?_, ?_, ?_⟩
      · intro k
        rw [omem k]
        constructor
        · rintro (rfl | hk | hk)
          · exact ⟨memB_node_iff.mpr (Or.inl rfl), by omega⟩
          · obtain ⟨hkl', hne⟩ := (hmem2 k).mp hk
            exact ⟨memB_node_iff.mpr (Or.inr (Or.inl hkl')), hne⟩
          · have hndk : nd < k := by simpa using allB_mem hkr hk
            exact ⟨memB_node_iff.mpr (Or.inr (Or.inr hk)), by omega⟩
        · rintro ⟨hmem, hne⟩
          rcases memB_node_iff.mp hmem with rfl | hk | hk
          · exact Or.inl rfl
          · exact Or.inr (Or.inl ((hmem2 k).mpr ⟨hk, hne⟩))
          · exact Or.inr (Or.inr hk)
      · rw [hinc2, memB_node, hmdr, hdnd]
        simp
      · intro hf
        have hl2 : l2 = l := hnoop2 hf
        subst hl2
        rw [hofix (by omega), hcache]
      · simp only [real_height_node]; omega
      · simp only [real_height_node]
        have hl2t : real_height l2 ≤ real_height t2 :=
          le_trans (Nat.le_max_left _ _) holo
        have hrt : real_height r ≤ real_height t2 :=
          le_trans (Nat.le_max_right _ _) holo
        refine Nat.add_le_add_right (Nat.max_le.mpr ⟨?_, hrt⟩) 1
        by_cases hfx : ((real_height l2 : Int) - (real_height r : Int)).natAbs ≤ 1
        · have ht2 : real_height t2 = max (real_height l2) (real_height r) + 1 := by
            rw [hofix hfx, real_height_node]
          have hml2 : real_height l2 ≤ max (real_height l2) (real_height r) :=
            Nat.le_max_left _ _
          omega
        · omega
    · -- key found at this node
      subst hdn
      rcases l with _ | ⟨ll, ld, lh, lr⟩
      · -- no left child: return the right child
        have heval : delete_avl (AVL.node AVL.nil d nh r) d = some (r, 1) := by
          simp only [delete_avl, if_neg (lt_irrefl d)]
        refine ⟨r, 1, heval, hbr, hbalr, hhr, ?_, ?_, ?_, ?_, ?_⟩
        · intro k
          constructor
          · intro hk
            have hndk : d < k := by simpa using allB_mem hkr hk
            exact ⟨memB_node_iff.mpr (Or.inr (Or.inr hk)), by omega⟩
          · rintro ⟨hmem, hne⟩
            rcases memB_node_iff.mp hmem with rfl | hk | hk
            · exact absurd rfl hne
            · simp at hk
            · exact hk
        · constructor
          · intro h; exact absurd h one_ne_zero
          · intro h; rw [memB_node] at h; simp at h
        · intro h; exact absurd h one_ne_zero
        · simp only [real_height_node]; simp
        · simp only [real_height_node]; simp
      · rcases r with _ | ⟨rl, rd, rh, rr⟩
        · -- no right child: return the left child
          have heval : delete_avl (AVL.node (AVL.node ll ld lh lr) d nh AVL.nil) d =
              some (AVL.node ll ld lh lr, 1) := by
            simp only [delete_avl, if_neg (lt_irrefl d)]
          refine ⟨AVL.node ll ld lh lr, 1, heval, hbl, hball, hhl, ?_, ?_, ?_, ?_, ?_⟩
          · intro k
            constructor
            · intro hk
              have hkd : k < d := by simpa using allB_mem hkl hk
              exact ⟨memB_node_iff.mpr (Or.inr (Or.inl hk)), by omega⟩
            · rintro ⟨hmem, hne⟩
              rcases memB_node_iff.mp hmem with rfl | hk | hk
              · exact absurd rfl hne
              · exact hk
              · simp at hk
          · constructor
            · intro h; exact absurd h one_ne_zero
            · intro h; rw [memB_node] at h; simp at h
          · intro h; exact absurd h one_ne_zero
          · simp only [real_height_node]; simp
          · simp only [real_height_node]; simp
        · -- two children: copy the in-order successor and delete it
          obtain ⟨s, hsfind, hsmem, hslow⟩ :=
            find_min_node_spec (AVL.node rl rd rh rr) hbr (by simp)
          have hds : d < s := by simpa using allB_mem hkr hsmem
          obtain ⟨r2, c, heqr, rbst, rbal, rhok, rmem, rinc, rnoop, rlo, rhi⟩ :=
            ihr hbr hbalr hhr s
          have hkls : allB (fun k => decide (k < s))
              (AVL.node ll ld lh lr) = true := by
            refine allB_of_mem (fun k hk => ?_)
            have := allB_mem hkl hk
            simp at this ⊢; omega
          have hkr2 : allB (fun k => decide (s < k)) r2 = true := by
            refine allB_of_mem (fun k hk => ?_)
            obtain ⟨hkr', hne⟩ := (rmem k).mp hk
            have := hslow k hkr'
            simp; omega
          obtain ⟨t2, heq2, obst, obal, ohok, omem, holo, hohi, hofix⟩ :=
            rebalance_del_spec hbl hball hhl rbst rbal rhok hkls hkr2
              (by omega) (by omega)
          have heval : delete_avl
              (AVL.node (AVL.node ll ld lh lr) d nh (AVL.node rl rd rh rr)) d =
              some (t2, c + 1) := by
            rw [delete_avl.eq_4, if_neg (lt_irrefl d), if_neg (lt_irrefl d), hsfind]
            dsimp only
            rw [heqr]
            dsimp only
            rw [heq2]
          refine ⟨t2, c + 1, heval, obst, obal, ohok, ?_, ?_, ?_, ?_, ?_⟩
          · intro k
            rw [omem k]
            constructor
            · rintro (rfl | hk | hk)
              · exact ⟨memB_node_iff.mpr (Or.inr (Or.inr hsmem)), by omega⟩
              · have hkd : k < d := by simpa using allB_mem hkl hk
                exact ⟨memB_node_iff.mpr (Or.inr (Or.inl hk)), by omega⟩
              · obtain ⟨hkr', hne⟩ := (rmem k).mp hk
                have hdk : d < k := by simpa using allB_mem hkr hkr'
                exact ⟨memB_node_iff.mpr (Or.inr (Or.inr hkr')), by omega⟩
            · rintro ⟨hmem, hne⟩
              rcases memB_node_iff.mp hmem with rfl | hk | hk
              · exact absurd rfl hne
              · exact Or.inr (Or.inl hk)
              · by_cases hks : k = s
                · exact Or.inl hks
                · exact Or.inr (Or.inr ((rmem k).mpr ⟨hk, hks⟩))
          · constructor
            · intro h; simp at h
            · intro h; rw [memB_node] at h; simp at h
          · intro h; simp at h
          · rw [real_height_node]
            refine le_trans hohi ?_
            refine Nat.add_le_add_right (Nat.max_le.mpr ⟨Nat.le_max_left _ _, ?_⟩) 1
            exact le_trans rlo (Nat.le_max_right _ _)
          · rw [real_height_node]
            have hLt : real_height (AVL.node ll ld lh lr) ≤ real_height t2 :=
              le_trans (Nat.le_max_left _ _) holo
            have hr2t : real_height r2 ≤ real_height t2 :=
              le_trans (Nat.le_max_right _ _) holo
            refine Nat.add_le_add_right (Nat.max_le.mpr ⟨hLt, ?_⟩) 1
            by_cases hfx : ((real_height (AVL.node ll ld lh lr) : Int) -
                (real_height r2 : Int)).natAbs ≤ 1
            · have ht2 : real_height t2 =
                  max (real_height (AVL.node ll ld lh lr)) (real_height r2) + 1 := by
                rw [hofix hfx, real_height_node]
              have hmr : real_height r2 ≤
                  max (real_height (AVL.node ll ld lh lr)) (real_height r2) :=
                Nat.le_max_right _ _
              omega
            · omega
    · -- deletion goes right
      obtain ⟨r2, c, heq, hbst2, hbal2, hhok2, hmem2, hinc2, hnoop2, hlo2, hhi2⟩ :=
        ihr hbr hbalr hhr d
      have hkr2 : allB (fun k => decide (nd < k)) r2 = true := by
        refine allB_of_mem (fun k hk => ?_)
        exact allB_mem hkr ((hmem2 k).mp hk).1
      obtain ⟨t2, heq2, obst, obal, ohok, omem, holo, hohi, hofix⟩ :=
        rebalance_del_spec hbl hball hhl hbst2 hbal2 hhok2 hkl hkr2
          (by omega) (by omega)
      have heval : delete_avl (AVL.node l nd nh r) d = some (t2, c) := by
        simp only [delete_avl, if_neg (by omega : ¬ d < nd), if_pos hdn, heq, heq2]
      have hmdl : memB d l = false := by
        cases hmd : memB d l
        · rfl
        · have := allB_mem hkl hmd
          simp at this; omega
      have hdnd : (d == nd) = false := beq_eq_false_iff_ne.mpr hdn.ne'
      refine ⟨t2, c, heval, obst, obal, ohok, ?_, ?_, ?_, ?_, ?_⟩
      · intro k
        rw [omem k]
        constructor
        · rintro (rfl | hk | hk)
          · exact ⟨memB_node_iff.mpr (Or.inl rfl), by omega⟩
          · have hknd : k < nd := by simpa using allB_mem hkl hk
            exact ⟨memB_node_iff.mpr (Or.inr (Or.inl hk)), by omega⟩
          · obtain ⟨hkr', hne⟩ := (hmem2 k).mp hk
            exact ⟨memB_node_iff.mpr (Or.inr (Or.inr hkr')), hne⟩
        · rintro ⟨hmem, hne⟩
          rcases memB_node_iff.mp hmem with rfl | hk | hk
          · exact Or.inl rfl
          · exact Or.inr (Or.inl hk)
          · exact Or.inr (Or.inr ((hmem2 k).mpr ⟨hk, hne⟩))
      · rw [hinc2, memB_node, hmdl, hdnd]
        simp
      · intro hf
        have hr2 : r2 = r := hnoop2 hf
        subst hr2
        rw [hofix (by omega), hcache]
      · simp only [real_height_node]; omega
      · simp only [real_height_node]
        have hlt : real_height l ≤ real_height t2 :=
          le_trans (Nat.le_max_left _ _) holo
        have hr2t : real_height r2 ≤ real_height t2 :=
          le_trans (Nat.le_max_right _ _) holo
        refine Nat.add_le_add_right (Nat.max_le.mpr ⟨hlt, ?_⟩) 1
        by_cases hfx : ((real_height l : Int) - (real_height r2 : Int)).natAbs ≤ 1
        · have ht2 : real_height t2 = max (real_height l) (real_height r2) + 1 := by
            rw [hofix hfx, real_height_node]
          have hmr : real_height r2 ≤ max (real_height l) (real_height r2) :=
            Nat.le_max_right _ _
          omega
        · omega

/-- On a non-empty BST `find_max` returns the maximum key. -/
theorem find_max_spec : ∀ t : AVL, bstB t = true → t ≠ AVL.nil →
    ∃ m, find_max t = some m ∧ memB m t = true ∧
      ∀ k, memB k t = true → k ≤ m := by
  intro t
  induction t with
  | nil => intro _ h; exact absurd rfl h
  | node l d h r ihl ihr =>
    intro hbst _
    obtain ⟨hkl, hkr, hbl, hbr⟩ := bstB_node_iff.mp hbst
    rcases r with _ | ⟨a, b, c, e⟩
    · refine ⟨d, rfl, memB_node_iff.mpr (Or.inl rfl), ?_⟩
      intro k hk
      rcases memB_node_iff.mp hk with rfl | hk | hk
      · exact le_refl k
      · have := allB_mem hkl hk; simp at this; omega
      · simp at hk
    · obtain ⟨m, hfind, hmem, hhigh⟩ := ihr hbr (by simp)
      have hdm : d < m := by
        have := allB_mem hkr hmem; simpa using this
      refine ⟨m, hfind, memB_node_iff.mpr (Or.inr (Or.inr hmem)), ?_⟩
      intro k hk
      rcases memB_node_iff.mp hk with rfl | hk | hk
      · omega
      · have := allB_mem hkl hk; simp at this; omega
      · exact hhigh k hk

/-- State-level specification of `AVLTree.insert`: on an invariant state it
succeeds, restores the invariants and adds the key. -/
theorem insert_state_spec (t : AVL) (n : Int)
    (hb : bstB t = true) (hal : balancedB t = true) (hho : heightsOk t = true)
    (d : Int) :
    ∃ t' n', insert ⟨t, n⟩ d = some ⟨t', n'⟩ ∧
      bstB t' = true ∧ balancedB t' = true ∧ heightsOk t' = true ∧
      (∀ k, memB k t' = true ↔ (memB k t = true ∨ k = d)) := by
  rcases t with _ | ⟨l, nd, nh, r⟩
  · refine ⟨AVL.node AVL.nil d 1 AVL.nil, 1, rfl, by simp [bstB, allB],
      by simp [balancedB], by simp [heightsOk, get_height], ?_⟩
    intro k; simp [memB_node_iff]
  · obtain ⟨t', inc, heq, h1, h2, h3, hmem, _, _, _, _, _⟩ :=
      insert_avl_spec d (AVL.node l nd nh r) hb hal hho
    exact ⟨t', n + (if inc then 1 else 0), by simp only [insert, heq], h1, h2, h3, hmem⟩

/-- State-level specification of `AVLTree.delete`: on an invariant state it
succeeds, restores the invariants and removes the key. -/
theorem delete_state_spec (t : AVL) (n : Int)
    (hb : bstB t = true) (hal : balancedB t = true) (hho : heightsOk t = true)
    (d : Int) :
    ∃ t' n' bres, delete ⟨t, n⟩ d = some (⟨t', n'⟩, bres) ∧
      bstB t' = true ∧ balancedB t' = true ∧ heightsOk t' = true ∧
      (∀ k, memB k t' = true ↔ (memB k t = true ∧ k ≠ d)) := by
  rcases t with _ | ⟨l, nd, nh, r⟩
  · exact ⟨AVL.nil, n, false, rfl, by simp, by simp, by simp, by simp⟩
  · obtain ⟨t', c, heq, h1, h2, h3, hmem, _, _, _, _⟩ :=
      delete_avl_spec (AVL.node l nd nh r) hb hal hho d
    exact ⟨t', n - (c : Int), decide (n - (c : Int) < n),
      by simp only [delete, heq], h1, h2, h3, hmem⟩

/-- Every public mutating call on an invariant state succeeds and restores
the invariants. -/
theorem step_spec (s : AVLState)
    (hb : bstB s.root = true) (hal : balancedB s.root = true)
    (hho : heightsOk s.root = true) (op : Op) :
    ∃ s', step s op = some s' ∧
      bstB s'.root = true ∧ balancedB s'.root = true ∧
      heightsOk s'.root = true := by
  rcases s with ⟨t, n⟩
  rcases op with k | k
  · obtain ⟨t', n', heq, h1, h2, h3, _⟩ := insert_state_spec t n hb hal hho k
    exact ⟨⟨t', n'⟩, by simp [step, heq], h1, h2, h3⟩
  · obtain ⟨t', n', bres, heq, h1, h2, h3, _⟩ := delete_state_spec t n hb hal hho k
    exact ⟨⟨t', n'⟩, by simp [step, heq], h1, h2, h3⟩

/-- Invariant preservation along any finite sequence of calls. -/
theorem runFrom_spec : ∀ (ops : List Op) (s : AVLState),
    bstB s.root = true → balancedB s.root = true → heightsOk s.root = true →
    ∃ s', List.foldlM step s ops = some s' ∧
      bstB s'.root = true ∧ balancedB s'.root = true ∧
      heightsOk s'.root = true := by
  intro ops
  induction ops with
  | nil => intro s h1 h2 h3; exact ⟨s, rfl, h1, h2, h3⟩
  | cons op ops ih =>
    intro s h1 h2 h3
    obtain ⟨s1, heq, g1, g2, g3⟩ := step_spec s h1 h2 h3 op
    obtain ⟨s', heq', k1, k2, k3⟩ := ih s1 g1 g2 g3
    exact ⟨s', by rw [List.foldlM_cons, heq]; exact heq', k1, k2, k3⟩

/-- Key tracking along a sequence of insertions. -/
theorem runIns_spec : ∀ (l : List Int) (s : AVLState),
    bstB s.root = true → balancedB s.root = true → heightsOk s.root = true →
    ∃ s', List.foldlM step s (l.map Op.ins) = some s' ∧
      bstB s'.root = true ∧ balancedB s'.root = true ∧
      heightsOk s'.root = true ∧
      (∀ k, memB k s'.root = true ↔ (memB k s.root = true ∨ k ∈ l)) := by
  intro l
  induction l with
  | nil =>
    intro s h1 h2 h3
    exact ⟨s, rfl, h1, h2, h3, by simp⟩
  | cons d l ih =>
    intro s h1 h2 h3
    rcases s with ⟨t, n⟩
    obtain ⟨t1, n1, heq, g1, g2, g3, gmem⟩ := insert_state_spec t n h1 h2 h3 d
    obtain ⟨s', heq', k1, k2, k3, kmem⟩ := ih ⟨t1, n1⟩ g1 g2 g3
    refine ⟨s', ?_, k1, k2, k3, ?_⟩
    · rw [List.map_cons, List.foldlM_cons]
      simp only [step, heq]
      exact heq'
    · intro k
      rw [kmem k]
      simp only [gmem k, List.mem_cons]
      tauto

/-- Inserting an already-present key is a complete no-op on the state. -/
theorem insert_noop {t : AVL} {n : Int}
    (hb : bstB t = true) (hal : balancedB t = true) (hho : heightsOk t = true)
    {d : Int} (hm : memB d t = true) :
    insert ⟨t, n⟩ d = some ⟨t, n⟩ := by
  rcases t with _ | ⟨l, nd, nh, r⟩
  · simp at hm
  · obtain ⟨t', inc, heq, _, _, _, _, hinc, hnoop, _, _, _⟩ :=
      insert_avl_spec d (AVL.node l nd nh r) hb hal hho
    have hincf : inc = false := by
      cases hinc' : inc
      · rfl
      · rw [hinc.mp hinc'] at hm; exact absurd hm (by simp)
    have ht' : t' = AVL.node l nd nh r := hnoop hincf
    subst ht'; subst hincf
    simp only [insert, heq]
    norm_num

/-- Deleting an absent key (including from the empty tree) returns `False`
and is a complete no-op on the state. -/
theorem delete_noop {t : AVL} {n : Int}
    (hb : bstB t = true) (hal : balancedB t = true) (hho : heightsOk t = true)
    {d : Int} (hm : memB d t = false) :
    delete ⟨t, n⟩ d = some (⟨t, n⟩, false) := by
  rcases t with _ | ⟨l, nd, nh, r⟩
  · rfl
  · obtain ⟨t', c, heq, _, _, _, _, hinc, hnoop, _, _⟩ :=
      delete_avl_spec (AVL.node l nd nh r) hb hal hho d
    have hc0 : c = 0 := hinc.mpr hm
    have ht' : t' = AVL.node l nd nh r := hnoop hc0
    subst ht'; subst hc0
    simp only [delete, heq]
    norm_num

/-! Claim theorems. -/

/-- C1: for every finite sequence of `AVLTree.insert` / `AVLTree.delete`
calls starting from the empty tree, every call returns, and after it every
node satisfies the BST ordering property (`bstB`), the AVL balance property
on the true subtree heights (`balancedB`), and its cached `height` field
equals `1 + max` of its children's cached heights, `0` for an absent child
(`heightsOk`).  Every prefix of a sequence is itself such a sequence, so this
covers the state after each call of the sequence. -/
theorem claim1_invariants_preserved (ops : List Op) :
    ∃ s, run ops = some s ∧ bstB s.root = true ∧ balancedB s.root = true ∧
      heightsOk s.root = true :=
  runFrom_spec ops emptyTree rfl rfl rfl

/-- C2 (code-bug evidence): insert 1, 2, 3 into an empty `AVLTree` (size
becomes 3, key 2 is present, with two children at the root), then
`delete(2)`.  The call returns `True` and the remaining keys are exactly
`[1, 3]`, but `self.size` drops from 3 to 1: `_delete_avl` runs
`self.size -= 1` once for the deleted node and once more inside the
recursive deletion of the in-order successor, so the count decrements by 2,
not by exactly 1 as specified. -/
theorem claim2_size_double_decrement :
    run [Op.ins 1, Op.ins 2, Op.ins 3] =
      some ⟨AVL.node (AVL.node AVL.nil 1 1 AVL.nil) 2 2
        (AVL.node AVL.nil 3 1 AVL.nil), 3⟩ ∧
    memB 2 (AVL.node (AVL.node AVL.nil 1 1 AVL.nil) 2 2
      (AVL.node AVL.nil 3 1 AVL.nil)) = true ∧
    delete ⟨AVL.node (AVL.node AVL.nil 1 1 AVL.nil) 2 2
      (AVL.node AVL.nil 3 1 AVL.nil), 3⟩ 2 =
      some (⟨AVL.node (AVL.node AVL.nil 1 1 AVL.nil) 3 2 AVL.nil, 1⟩, true) ∧
    inorder (AVL.node (AVL.node AVL.nil 1 1 AVL.nil) 3 2 AVL.nil) = [1, 3] := by
  refine ⟨by decide, by decide, by decide, by decide⟩

/-- C3: for every list of keys, inserting them in that order into an empty
`AVLTree` crashes nowhere, and the in-order traversal of the result is
strictly ascending (hence each distinct key appears exactly once) and
contains exactly the inserted keys. -/
theorem claim3_inorder_sorted (keys : List Int) :
    ∃ s, run (keys.map Op.ins) = some s ∧
      List.Pairwise (· < ·) (inorder s.root) ∧
      (∀ k, k ∈ inorder s.root ↔ k ∈ keys) ∧
      (inorder s.root).Nodup := by
  obtain ⟨s, heq, h1, h2, h3, hmem⟩ := runIns_spec keys emptyTree rfl rfl rfl
  have hsort := bstB_sorted h1
  refine ⟨s, heq, hsort, ?_, List.Pairwise.imp (fun h => ne_of_lt h) hsort⟩
  intro k
  rw [mem_inorder, hmem k]
  simp [emptyTree]

/-- C4: on every state reachable by a sequence of `AVLTree.insert` /
`AVLTree.delete` calls from the empty tree, inserting a key that is already
present returns the state unchanged — same root structure (hence the same
traversal) and the same `size`. -/
theorem claim4_insert_idempotent (ops : List Op) (s : AVLState) (d : Int)
    (hrun : run ops = some s) (hm : memB d s.root = true) :
    insert s d = some s := by
  obtain ⟨s', heq, h1, h2, h3⟩ := runFrom_spec ops emptyTree rfl rfl rfl
  have hss : s = s' := Option.some.inj (hrun.symm.trans heq)
  subst hss
  rcases s with ⟨t, n⟩
  exact insert_noop h1 h2 h3 hm

/-- Witness for C4 at a concrete input. -/
theorem claim4_witness :
    run [Op.ins 5] = some ⟨AVL.node AVL.nil 5 1 AVL.nil, 1⟩ ∧
    memB 5 (AVL.node AVL.nil 5 1 AVL.nil) = true ∧
    insert ⟨AVL.node AVL.nil 5 1 AVL.nil, 1⟩ 5 =
      some ⟨AVL.node AVL.nil 5 1 AVL.nil, 1⟩ :=
  ⟨by decide, by decide,
    claim4_insert_idempotent [Op.ins 5] ⟨AVL.node AVL.nil 5 1 AVL.nil, 1⟩ 5
      (by decide) (by decide)⟩

/-- C5 (code-bug evidence): after inserting the two distinct keys 1 and 2
the tree is a root whose left child is absent and whose right child is
present; `BinaryTree.get_height` re-interprets its `None` default argument
as the tree root on every call, so the recursive call on the absent left
child restarts the computation at the root and `get_height()` exceeds every
recursion depth (a `RecursionError` in Python) instead of returning the
height `1 ≤ 1.44·log2(2+2) − 1`. -/
theorem claim5_get_height_diverges :
    run [Op.ins 1, Op.ins 2] =
      some ⟨AVL.node AVL.nil 1 2 (AVL.node AVL.nil 2 1 AVL.nil), 2⟩ ∧
    ∀ fuel : Nat,
      get_height_rec (AVL.node AVL.nil 1 2 (AVL.node AVL.nil 2 1 AVL.nil))
        fuel AVL.nil = none := by
  refine ⟨by decide, ?_⟩
  intro fuel
  induction fuel with
  | zero => rfl
  | succ n ih => simp [get_height_rec, ih]

/-- C6: `find_min` / `find_max` on a BST return an explicit `None` exactly
on the tree with zero stored keys, never a wrong default value; on a
non-empty tree they return a present key that is the minimum resp. maximum
of the stored keys (the functions only read the structure, they mutate
nothing). -/
theorem claim6_find_min_max (t : AVL) (hb : bstB t = true) :
    ((∀ k, memB k t = false) → find_min t = none ∧ find_max t = none) ∧
    (∀ m, find_min t = some m →
      memB m t = true ∧ ∀ k, memB k t = true → m ≤ k) ∧
    (∀ m, find_max t = some m →
      memB m t = true ∧ ∀ k, memB k t = true → k ≤ m) ∧
    (t ≠ AVL.nil → (find_min t).isSome = true ∧ (find_max t).isSome = true) := by
  refine ⟨?_, ?_, ?_, ?_⟩
  · intro hall
    rcases t with _ | ⟨l, d, h, r⟩
    · exact ⟨rfl, rfl⟩
    · have hroot : memB d (AVL.node l d h r) = true :=
        memB_node_iff.mpr (Or.inl rfl)
      rw [hall d] at hroot
      exact absurd hroot (by simp)
  · intro m hfm
    rcases t with _ | ⟨l, d, h, r⟩
    · exact absurd hfm (by simp [find_min])
    · obtain ⟨s, hs, hmem, hlow⟩ :=
        find_min_node_spec (AVL.node l d h r) hb (by simp)
      have : find_min (AVL.node l d h r) = some s := hs
      rw [this] at hfm
      injection hfm with hms
      subst hms
      exact ⟨hmem, hlow⟩
  · intro m hfm
    rcases t with _ | ⟨l, d, h, r⟩
    · exact absurd hfm (by simp [find_max])
    · obtain ⟨s, hs, hmem, hhigh⟩ := find_max_spec (AVL.node l d h r) hb (by simp)
      rw [hs] at hfm
      injection hfm with hms
      subst hms
      exact ⟨hmem, hhigh⟩
  · intro hne
    rcases t with _ | ⟨l, d, h, r⟩
    · exact absurd rfl hne
    · obtain ⟨s, hs, _, _⟩ := find_min_node_spec (AVL.node l d h r) hb (by simp)
      obtain ⟨m, hm, _, _⟩ := find_max_spec (AVL.node l d h r) hb (by simp)
      have hs' : find_min (AVL.node l d h r) = some s := hs
      constructor
      · rw [hs']; rfl
      · rw [hm]; rfl

/-- Witness for C6 at a concrete input. -/
theorem claim6_witness :
    bstB (AVL.node AVL.nil 7 1 AVL.nil) = true ∧
    memB 7 (AVL.node AVL.nil 7 1 AVL.nil) = true :=
  ⟨by decide,
    ((claim6_find_min_max (AVL.node AVL.nil 7 1 AVL.nil) (by decide)).2.1 7
      rfl).1⟩

/-- C8 (counterexample): `is_balanced` reads the cached `height` fields via
`_get_balance`, so its verdict does depend on stale caches: on a root whose
left child is a leaf with a stale cached height of 3, `is_balanced` returns
`False` although every node's recomputed structural balance factor is within
`±1`. -/
theorem claim8_counterexample :
    is_balanced (AVL.node (AVL.node AVL.nil 1 3 AVL.nil) 2 1 AVL.nil) = false ∧
    balancedB (AVL.node (AVL.node AVL.nil 1 3 AVL.nil) 2 1 AVL.nil) = true := by
  refine ⟨by decide, by decide⟩

/-- C8 (amended): `is_balanced` returns `True` iff every node's balance
factor computed from the CACHED height fields is within `±1`; whenever the
cached heights are coherent (`heightsOk`, which holds on every tree the
public API produces), this verdict coincides with the balance check on
recomputed structural heights. -/
theorem claim8_amended (t : AVL) (hh : heightsOk t = true) :
    is_balanced t = true ↔ balancedB t = true := by
  induction t with
  | nil => simp [is_balanced, balancedB]
  | node l d h r ihl ihr =>
    obtain ⟨hc, hl, hr⟩ := heightsOk_node_iff.mp hh
    have gl := get_height_eq_real hl
    have gr := get_height_eq_real hr
    rw [show is_balanced (AVL.node l d h r) =
        (decide ((get_balance (AVL.node l d h r)).natAbs ≤ 1) &&
          is_balanced l && is_balanced r) from rfl]
    simp only [get_balance, get_height_node, gl, gr, Bool.and_eq_true,
      decide_eq_true_eq, balancedB_node_iff, and_assoc]
    rw [ihl hl, ihr hr]

/-- Witness for C8's amended theorem at a concrete input. -/
theorem claim8_witness :
    heightsOk (AVL.node AVL.nil 4 1 AVL.nil) = true ∧
    (is_balanced (AVL.node AVL.nil 4 1 AVL.nil) = true ↔
      balancedB (AVL.node AVL.nil 4 1 AVL.nil) = true) :=
  ⟨by decide, claim8_amended (AVL.node AVL.nil 4 1 AVL.nil) (by decide)⟩

/-- C9 (code-bug evidence): build the AVL tree {1, 2, 3} by inserts (root 2,
children 1 and 3).  `_insert_avl` never assigns `TreeNode.parent`, so
`find_predecessor(3)` — whose found node has no left child and therefore
walks the parent chain — returns `None` although the largest stored key
smaller than 3 is 2; symmetrically `find_successor(1)` returns `None`
although the smallest stored key greater than 1 is 2. -/
theorem claim9_parent_pointer_bug :
    run [Op.ins 2, Op.ins 1, Op.ins 3] =
      some ⟨AVL.node (AVL.node AVL.nil 1 1 AVL.nil) 2 2
        (AVL.node AVL.nil 3 1 AVL.nil), 3⟩ ∧
    find_predecessor (AVL.node (AVL.node AVL.nil 1 1 AVL.nil) 2 2
      (AVL.node AVL.nil 3 1 AVL.nil)) 3 = none ∧
    find_successor (AVL.node (AVL.node AVL.nil 1 1 AVL.nil) 2 2
      (AVL.node AVL.nil 3 1 AVL.nil)) 1 = none ∧
    memB 2 (AVL.node (AVL.node AVL.nil 1 1 AVL.nil) 2 2
      (AVL.node AVL.nil 3 1 AVL.nil)) = true ∧
    (2 : Int) < 3 ∧ (1 : Int) < 2 := by
  refine ⟨by decide, by decide, by decide, by decide, by decide, by decide⟩

/-- C7: on every reachable state, `AVLTree.delete` of an absent key — in
particular any delete on the empty tree — returns `False` and leaves the
state completely unchanged (same root structure, same traversal, same
`size`). -/
theorem claim7_delete_absent_noop (ops : List Op) (s : AVLState) (d : Int)
    (hrun : run ops = some s) (hm : memB d s.root = false) :
    delete s d = some (s, false) := by
  obtain ⟨s', heq, h1, h2, h3⟩ := runFrom_spec ops emptyTree rfl rfl rfl
  have hss : s = s' := Option.some.inj (hrun.symm.trans heq)
  subst hss
  rcases s with ⟨t, n⟩
  exact delete_noop h1 h2 h3 hm

/-- Witness for C7 at a concrete input. -/
theorem claim7_witness :
    run [Op.ins 5] = some ⟨AVL.node AVL.nil 5 1 AVL.nil, 1⟩ ∧
    memB 9 (AVL.node AVL.nil 5 1 AVL.nil) = false ∧
    delete ⟨AVL.node AVL.nil 5 1 AVL.nil, 1⟩ 9 =
      some (⟨AVL.node AVL.nil 5 1 AVL.nil, 1⟩, false) :=
  ⟨by decide, by decide,
    claim7_delete_absent_noop [Op.ins 5] ⟨AVL.node AVL.nil 5 1 AVL.nil, 1⟩ 9
      (by decide) (by decide)⟩

/-- C10: on every tree satisfying the three structural invariants (hence on
every reachable tree, by C1), `_insert_avl` and `_delete_avl` return a value
for every key: the absent-child dereferences inside `_rotate_left` /
`_rotate_right` and in the rotation guards — the `none` results of the
embedding — are never reached, because every rotation is guarded by
balance-factor conditions on the cached heights that force the required
child to exist. -/
theorem claim10_rotations_never_crash (t : AVL) (d : Int) (h : Inv t) :
    (insert_avl t d).isSome = true ∧ (delete_avl t d).isSome = true := by
  obtain ⟨h1, h2, h3⟩ := h
  obtain ⟨t', inc, heq, _⟩ := insert_avl_spec d t h1 h2 h3
  obtain ⟨t'', c, heq', _⟩ := delete_avl_spec t h1 h2 h3 d
  exact ⟨by rw [heq]; rfl, by rw [heq']; rfl⟩

/-- Witness for C10 at a concrete input (a tree where insertion of 0
triggers a rotation). -/
theorem claim10_witness :
    Inv (AVL.node (AVL.node AVL.nil 2 2 (AVL.node AVL.nil 3 1 AVL.nil)) 4 3
      (AVL.node AVL.nil 5 1 AVL.nil)) ∧
    (insert_avl (AVL.node (AVL.node AVL.nil 2 2 (AVL.node AVL.nil 3 1 AVL.nil)) 4 3
      (AVL.node AVL.nil 5 1 AVL.nil)) 0).isSome = true ∧
    (delete_avl (AVL.node (AVL.node AVL.nil 2 2 (AVL.node AVL.nil 3 1 AVL.nil)) 4 3
      (AVL.node AVL.nil 5 1 AVL.nil)) 0).isSome = true :=
  ⟨by decide,
    (claim10_rotations_never_crash
      (AVL.node (AVL.node AVL.nil 2 2 (AVL.node AVL.nil 3 1 AVL.nil)) 4 3
        (AVL.node AVL.nil 5 1 AVL.nil)) 0 (by decide)).1,
    (claim10_rotations_never_crash
      (AVL.node (AVL.node AVL.nil 2 2 (AVL.node AVL.nil 3 1 AVL.nil)) 4 3
        (AVL.node AVL.nil 5 1 AVL.nil)) 0 (by decide)).2⟩

end AVLVerify
